import Mathlib

/-!
Verification development for a small genetic-algorithm repository with two
variants of the same evolutionary engine:

* `src/cilindro_ga.py`   — minimize insulation thickness `t` of a cylinder,
  genes `(k, t)`, penalties for `Q > Q_max` and `k > k_max`, seeded run.
* `src/placa_plana_ga.py` — minimize a normalized sum `t_norm + k_norm`,
  genes `(t, k)`, hard 1e9 sentinel outside the search box, penalty for
  `Q > Q_max`, unseeded run.

The embedding models Python/numpy floats with an explicit value type `FVal`
(finite rational, +inf, -inf, nan) and the few IEEE-754 operations the code
uses, genes as exact rationals (they are produced only by affine/clip
operations on stream draws), and the global numpy random generator as an
explicit stream-with-position state threaded through every stochastic call.
`np.log` is kept abstract as a rational-valued parameter `lg` applied to
positive arguments only (`flog` implements the nan and minus-infinity
behaviour at non-positive arguments), and `np.pi` as a rational
parameter `piq`.
-/

/-- A Python/numpy floating-point value: a finite (exact rational) value,
one of the two infinities, or nan. -/
inductive FVal where
  | fin (q : ℚ)
  | pinf
  | ninf
  | nan
deriving DecidableEq

namespace FVal

/-- IEEE negation. -/
def fneg : FVal → FVal
  | fin q => fin (-q)
  | pinf => ninf
  | ninf => pinf
  | nan => nan

/-- IEEE addition (inf + -inf = nan, nan absorbs). -/
def fadd : FVal → FVal → FVal
  | nan, _ => nan
  | _, nan => nan
  | fin a, fin b => fin (a + b)
  | fin _, pinf => pinf
  | fin _, ninf => ninf
  | pinf, fin _ => pinf
  | ninf, fin _ => ninf
  | pinf, pinf => pinf
  | ninf, ninf => ninf
  | pinf, ninf => nan
  | ninf, pinf => nan

/-- IEEE subtraction. -/
def fsub (a b : FVal) : FVal := fadd a (fneg b)

/-- IEEE multiplication (0 * inf = nan, nan absorbs). -/
def fmul : FVal → FVal → FVal
  | nan, _ => nan
  | _, nan => nan
  | fin a, fin b => fin (a * b)
  | fin a, pinf => if 0 < a then pinf else if a < 0 then ninf else nan
  | fin a, ninf => if 0 < a then ninf else if a < 0 then pinf else nan
  | pinf, fin b => if 0 < b then pinf else if b < 0 then ninf else nan
  | ninf, fin b => if 0 < b then ninf else if b < 0 then pinf else nan
  | pinf, pinf => pinf
  | pinf, ninf => ninf
  | ninf, pinf => ninf
  | ninf, ninf => pinf

/-- IEEE division.  Finite / (+0) follows the numpy behaviour for a positive
zero divisor (the only zero the rational embedding produces); 0/0, inf/inf
give nan; finite / inf gives 0. -/
def fdiv : FVal → FVal → FVal
  | nan, _ => nan
  | _, nan => nan
  | fin a, fin b =>
      if b = 0 then (if 0 < a then pinf else if a < 0 then ninf else nan)
      else fin (a / b)
  | fin _, pinf => fin 0
  | fin _, ninf => fin 0
  | pinf, fin b => if 0 ≤ b then pinf else ninf
  | ninf, fin b => if 0 ≤ b then ninf else pinf
  | pinf, pinf => nan
  | pinf, ninf => nan
  | ninf, pinf => nan
  | ninf, ninf => nan

/-- IEEE strict less-than: any comparison involving nan is false. -/
def flt : FVal → FVal → Bool
  | nan, _ => false
  | _, nan => false
  | fin a, fin b => decide (a < b)
  | fin _, pinf => true
  | fin _, ninf => false
  | pinf, _ => false
  | ninf, fin _ => true
  | ninf, pinf => true
  | ninf, ninf => false

/-- IEEE less-or-equal: any comparison involving nan is false. -/
def fle : FVal → FVal → Bool
  | nan, _ => false
  | _, nan => false
  | fin a, fin b => decide (a ≤ b)
  | fin _, pinf => true
  | fin _, ninf => false
  | pinf, pinf => true
  | pinf, _ => false
  | ninf, _ => true

theorem fle_refl (v : FVal) (h : v ≠ nan) : fle v v = true := by
  cases v <;> simp [fle] at *

theorem fle_trans {a b c : FVal} (h1 : fle a b = true) (h2 : fle b c = true) :
    fle a c = true := by
  cases a <;> cases b <;> cases c <;> simp [fle] at * <;> linarith

theorem fle_of_flt {a b : FVal} (h : flt a b = true) : fle a b = true := by
  cases a <;> cases b <;> simp [flt, fle] at * <;> linarith

theorem fle_of_not_flt {a b : FVal} (ha : a ≠ nan) (hb : b ≠ nan)
    (h : flt a b = false) : fle b a = true := by
  cases a <;> cases b <;> simp [flt, fle] at * <;> linarith

theorem ne_nan_of_fle_left {a b : FVal} (h : fle a b = true) : a ≠ nan := by
  cases a <;> simp [fle] at *

end FVal

/-- `np.clip(x, low, high)`: apply the lower bound, then the upper bound
(so for `low > high` the result is `high`, as in numpy). -/
def qclip (x low high : ℚ) : ℚ := min (max x low) high

theorem qclip_mem (x low high : ℚ) (h : low ≤ high) :
    low ≤ qclip x low high ∧ qclip x low high ≤ high := by
  unfold qclip
  constructor
  · exact le_min (le_max_right x low) h
  · exact min_le_right _ _

/-- `np.log` on a float argument: nan below zero, -inf at zero, and the
abstract rational logarithm `lg` on positive arguments. -/
def flog (lg : ℚ → ℚ) (x : ℚ) : FVal :=
  if x < 0 then FVal.nan else if x = 0 then FVal.ninf else FVal.fin (lg x)

/-- The raw value streams behind the global numpy generator: `u` backs
`np.random.rand`/`np.random.uniform` (values in `[0,1)` for a real
generator), `g` backs standard-normal draws, `z` backs integer draws. -/
structure RSrc where
  u : ℕ → ℚ
  g : ℕ → ℚ
  z : ℕ → ℕ

/-- The global generator state: the streams plus one read position each. -/
structure RState where
  src : RSrc
  up : ℕ
  gp : ℕ
  zp : ℕ

/-- A real uniform generator only produces values in `[0, 1)`. -/
def ValidSrc (src : RSrc) : Prop := ∀ n, 0 ≤ src.u n ∧ src.u n < 1

/-- `np.random.rand()`. -/
def randU (s : RState) : ℚ × RState := (s.src.u s.up, { s with up := s.up + 1 })

/-- A standard normal draw; `np.random.normal(0, sigma)` is modelled as
`sigma * randN`. -/
def randN (s : RState) : ℚ × RState := (s.src.g s.gp, { s with gp := s.gp + 1 })

/-- `np.random.randint(0, n)`: an integer in `[0, n)`. -/
def randZ (n : ℕ) (s : RState) : ℕ × RState :=
  (s.src.z s.zp % n, { s with zp := s.zp + 1 })

/-- `np.random.uniform(low, high)` = `low + (high - low) * rand()`. -/
def uniform (low high : ℚ) (s : RState) : ℚ × RState :=
  let p := randU s
  (low + (high - low) * p.1, p.2)

/-- `np.random.uniform(low, high, size=n)`: `n` consecutive draws. -/
def uniformVec (low high : ℚ) : ℕ → RState → List ℚ × RState
  | 0, s => ([], s)
  | n + 1, s =>
    let p := uniform low high s
    let q := uniformVec low high n p.2
    (p.1 :: q.1, q.2)

/-- `np.random.randint(0, bound, size=n)`: `n` consecutive integer draws. -/
def randZVec (bound : ℕ) : ℕ → RState → List ℕ × RState
  | 0, s => ([], s)
  | n + 1, s =>
    let p := randZ bound s
    let q := randZVec bound n p.2
    (p.1 :: q.1, q.2)

/-- Accumulator for `np.argmin`: walk the remaining list (whose first element
has virtual index `i`) keeping the index and value of the current best;
a strictly smaller value replaces the best, so the first minimum wins. -/
def argminAux : List FVal → ℕ → ℕ → FVal → ℕ × FVal
  | [], _, bi, bv => (bi, bv)
  | v :: rest, i, bi, bv =>
    if FVal.flt v bv then argminAux rest (i + 1) i v
    else argminAux rest (i + 1) bi bv

/-- `np.argmin` (index of the first minimum). -/
def argminIdx (l : List FVal) : ℕ := (argminAux l.tail 1 0 (l.headD FVal.nan)).1

/-- Accumulator for `np.argmax`, mirroring `argminAux`. -/
def argmaxAux : List FVal → ℕ → ℕ → FVal → ℕ × FVal
  | [], _, bi, bv => (bi, bv)
  | v :: rest, i, bi, bv =>
    if FVal.flt bv v then argmaxAux rest (i + 1) i v
    else argmaxAux rest (i + 1) bi bv

/-- `np.argmax` (index of the first maximum). -/
def argmaxIdx (l : List FVal) : ℕ := (argmaxAux l.tail 1 0 (l.headD FVal.nan)).1

/-- `fitness.max()`: the maximum value of the array. -/
def maxListF : List FVal → FVal
  | [] => FVal.nan
  | v :: rest => rest.foldl (fun acc w => if FVal.flt acc w then w else acc) v

/-- Sum of an array of floats. -/
def sumF (l : List FVal) : FVal := l.foldl FVal.fadd (FVal.fin 0)

/-- `fitness.mean()` = sum / length. -/
def meanF (l : List FVal) : FVal := FVal.fdiv (sumF l) (FVal.fin (l.length : ℚ))

theorem argminAux_fst_lt (l : List FVal) :
    ∀ i bi bv, (argminAux l i bi bv).1 < max (bi + 1) (i + l.length) := by
  induction l with
  | nil => intro i bi bv; simp only [argminAux, List.length_nil]; omega
  | cons v rest ih =>
    intro i bi bv
    simp only [argminAux, List.length_cons]
    split
    · have := ih (i + 1) i v
      omega
    · have := ih (i + 1) bi bv
      omega

theorem argminIdx_lt (l : List FVal) (h : l ≠ []) : argminIdx l < l.length := by
  cases l with
  | nil => exact absurd rfl h
  | cons a t =>
    have := argminAux_fst_lt t.tail 1 0 (List.headD t a)
    unfold argminIdx
    simp only [List.tail_cons, List.headD_cons, List.length_cons]
    have h2 := argminAux_fst_lt t 1 0 a
    omega

theorem argminAux_snd_spec (l : List FVal) :
    ∀ i bi bv, bv ≠ FVal.nan → (∀ w ∈ l, w ≠ FVal.nan) →
      (argminAux l i bi bv).2 ≠ FVal.nan ∧
      FVal.fle (argminAux l i bi bv).2 bv = true ∧
      ∀ w ∈ l, FVal.fle (argminAux l i bi bv).2 w = true := by
  induction l with
  | nil =>
    intro i bi bv hbv _
    refine ⟨hbv, FVal.fle_refl bv hbv, ?_⟩
    intro w hw; simp at hw
  | cons v rest ih =>
    intro i bi bv hbv hall
    have hv : v ≠ FVal.nan := hall v (by simp)
    have hrest : ∀ w ∈ rest, w ≠ FVal.nan := fun w hw => hall w (by simp [hw])
    simp only [argminAux]
    split
    · rename_i hlt
      obtain ⟨h1, h2, h3⟩ := ih (i + 1) i v hv hrest
      refine ⟨h1, ?_, ?_⟩
      · exact FVal.fle_trans h2 (FVal.fle_of_flt hlt)
      · intro w hw
        rcases List.mem_cons.mp hw with h | h
        · exact h ▸ h2
        · exact h3 w h
    · rename_i hnlt
      obtain ⟨h1, h2, h3⟩ := ih (i + 1) bi bv hbv hrest
      refine ⟨h1, h2, ?_⟩
      intro w hw
      rcases List.mem_cons.mp hw with h | h
      · subst h
        exact FVal.fle_trans h2 (FVal.fle_of_not_flt hv hbv (by simpa using hnlt))
      · exact h3 w h

theorem argminAux_getD (full : List FVal) :
    ∀ (l : List FVal) (i bi : ℕ),
      (∀ j, j < l.length → full.getD (i + j) FVal.nan = l.getD j FVal.nan) →
      ∀ bv, full.getD bi FVal.nan = bv →
        full.getD (argminAux l i bi bv).1 FVal.nan = (argminAux l i bi bv).2 := by
  intro l
  induction l with
  | nil => intro i bi _ bv hbv; simpa [argminAux] using hbv
  | cons v rest ih =>
    intro i bi hcons bv hbv
    have hhead : full.getD i FVal.nan = v := by
      have := hcons 0 (by simp)
      simpa using this
    have htail : ∀ j, j < rest.length →
        full.getD (i + 1 + j) FVal.nan = rest.getD j FVal.nan := by
      intro j hj
      have := hcons (j + 1) (by simp; omega)
      simpa [Nat.add_assoc, Nat.add_comm 1 j] using this
    simp only [argminAux]
    split
    · exact ih (i + 1) i htail v hhead
    · exact ih (i + 1) bi htail bv hbv

theorem getD_argminIdx (l : List FVal) :
    l.getD (argminIdx l) FVal.nan = (argminAux l.tail 1 0 (l.headD FVal.nan)).2 := by
  cases l with
  | nil => simp [argminIdx, argminAux]
  | cons a t =>
    unfold argminIdx
    simp only [List.tail_cons, List.headD_cons]
    apply argminAux_getD (a :: t) t 1 0
    · intro j hj
      simp [List.getD_cons_succ, Nat.add_comm 1 j]
    · simp

/-- The recorded per-generation best, `fitness[np.argmin(fitness)]`, is
(weakly) below every entry of a nan-free fitness array. -/
theorem best_le_all (l : List FVal) (hnn : ∀ w ∈ l, w ≠ FVal.nan) :
    ∀ w ∈ l, FVal.fle (l.getD (argminIdx l) FVal.nan) w = true := by
  cases l with
  | nil => intro w hw; simp at hw
  | cons a t =>
    intro w hw
    rw [getD_argminIdx]
    have ha : a ≠ FVal.nan := hnn a (by simp)
    have ht : ∀ v ∈ t, v ≠ FVal.nan := fun v hv => hnn v (by simp [hv])
    obtain ⟨h1, h2, h3⟩ := argminAux_snd_spec t 1 0 a ha ht
    simp only [List.tail_cons, List.headD_cons]
    rcases List.mem_cons.mp hw with h | h
    · exact h ▸ h2
    · exact h3 w h

theorem best_ne_nan (l : List FVal) (hnn : ∀ w ∈ l, w ≠ FVal.nan) (hne : l ≠ []) :
    l.getD (argminIdx l) FVal.nan ≠ FVal.nan := by
  cases l with
  | nil => exact absurd rfl hne
  | cons a t =>
    rw [getD_argminIdx]
    have ha : a ≠ FVal.nan := hnn a (by simp)
    have ht : ∀ v ∈ t, v ≠ FVal.nan := fun v hv => hnn v (by simp [hv])
    exact (argminAux_snd_spec t 1 0 a ha ht).1

/-- The recorded generation best: `fitness[np.argmin(fitness)]`. -/
def minD (l : List FVal) : FVal := l.getD (argminIdx l) FVal.nan

theorem minD_le_mem (l : List FVal) (hnn : ∀ w ∈ l, w ≠ FVal.nan) :
    ∀ w ∈ l, FVal.fle (minD l) w = true := best_le_all l hnn

theorem minD_ne_nan (l : List FVal) (hnn : ∀ w ∈ l, w ≠ FVal.nan)
    (hne : l ≠ []) : minD l ≠ FVal.nan := best_ne_nan l hnn hne

theorem getD_map_eq {α β : Type} (f : α → β) (l : List α) (i : ℕ)
    (h : i < l.length) (d : β) (d' : α) :
    (l.map f).getD i d = f (l.getD i d') := by
  induction l generalizing i with
  | nil => simp at h
  | cons a t ih =>
    cases i with
    | zero => simp
    | succ j =>
      simp only [List.map_cons, List.getD_cons_succ]
      exact ih j (by simpa using h)

theorem getD_mem {α : Type} (l : List α) (i : ℕ) (h : i < l.length) (d : α) :
    l.getD i d ∈ l := by
  induction l generalizing i with
  | nil => simp at h
  | cons a t ih =>
    cases i with
    | zero => simp
    | succ j =>
      simp only [List.getD_cons_succ]
      exact List.mem_cons_of_mem a (ih j (by simpa using h))

namespace Cilindro

/-- `r1 = 0.5` — inner radius [m]. -/
def r1 : ℚ := 1/2

/-- `L = 2.0` — length [m]. -/
def L : ℚ := 2

/-- `dT = 180` — temperature difference. -/
def dT : ℚ := 180

/-- `Q_max = 120.0` — heat-flow limit [W]. -/
def Q_max : ℚ := 120

/-- `k_max = 0.084` — conductivity limit. -/
def k_max : ℚ := 21/250

/-- `heat_flow(k, t) = 2*pi*k*L*dT / log(r2/r1)` with `r2 = r1 + t`. -/
def heat_flow (lg : ℚ → ℚ) (piq k t : ℚ) : FVal :=
  let r2 := r1 + t
  FVal.fdiv (FVal.fin (2 * piq * k * L * dT)) (flog lg (r2 / r1))

/-- `objective(individual, penalty_factor)`: base cost `t`, plus
`penalty_factor * (Q - Q_max)**2` when `Q > Q_max` and
`penalty_factor * (k - k_max)**2` when `k > k_max`.
The individual is the gene pair `(k, t)`. -/
def objective (lg : ℚ → ℚ) (piq pf : ℚ) (ind : ℚ × ℚ) : FVal :=
  let k := ind.1
  let t := ind.2
  let Q := heat_flow lg piq k t
  let f0 := FVal.fin t
  let f1 :=
    if FVal.flt (FVal.fin Q_max) Q then
      FVal.fadd f0
        (FVal.fmul (FVal.fin pf)
          (FVal.fmul (FVal.fsub Q (FVal.fin Q_max)) (FVal.fsub Q (FVal.fin Q_max))))
    else f0
  if k_max < k then FVal.fadd f1 (FVal.fin (pf * (k - k_max) * (k - k_max)))
  else f1

/-- The keyword parameters of `run_GA` (with `bounds` split into the two
gene ranges the unpacking in `objective` demands). -/
structure Config where
  bk : ℚ × ℚ
  bt : ℚ × ℚ
  pop_size : ℕ
  generations : ℕ
  crossover_rate : ℚ
  mutation_rate : ℚ
  mutation_scale : ℚ
  penalty_factor : ℚ
  seed : ℕ

/-- `evaluate(pop)`: map the objective over the population. -/
def evaluate (lg : ℚ → ℚ) (piq pf : ℚ) (pop : List (ℚ × ℚ)) : List FVal :=
  pop.map (objective lg piq pf)

/-- The inner `tournament_selection`: two indices from
`np.random.randint(0, pop_size, size=2)`, then
`population[i1] if fitness[i1] < fitness[i2] else population[i2]`. -/
def tournament_selection (pop : List (ℚ × ℚ)) (fit : List FVal) (n : ℕ)
    (s : RState) : (ℚ × ℚ) × RState :=
  let p1 := randZ n s
  let p2 := randZ n p1.2
  (if FVal.flt (fit.getD p1.1 FVal.nan) (fit.getD p2.1 FVal.nan)
    then pop.getD p1.1 (0, 0) else pop.getD p2.1 (0, 0), p2.2)

/-- `alpha * p + (1 - alpha) * q` on each gene. -/
def blend (a : ℚ) (p q : ℚ × ℚ) : ℚ × ℚ :=
  (a * p.1 + (1 - a) * q.1, a * p.2 + (1 - a) * q.2)

/-- One gene of the in-place mutation loop: with probability
`mutation_rate`, add `np.random.normal(0, mutation_scale * (high - low))`
and clip to `[low, high]`; otherwise leave the gene alone. -/
def mutateGene (low high mr ms x : ℚ) (s : RState) : ℚ × RState :=
  let r := randU s
  if r.1 < mr then
    let g := randN r.2
    (qclip (x + g.1 * (ms * (high - low))) low high, g.2)
  else (x, r.2)

/-- The mutation loop over the two genes of one child. -/
def mutateChild (cfg : Config) (c : ℚ × ℚ) (s : RState) : (ℚ × ℚ) × RState :=
  let k := mutateGene cfg.bk.1 cfg.bk.2 cfg.mutation_rate cfg.mutation_scale c.1 s
  let t := mutateGene cfg.bt.1 cfg.bt.2 cfg.mutation_rate cfg.mutation_scale c.2 k.2
  ((k.1, t.1), t.2)

/-- One selection-and-crossover pass of the breeding loop: select two
parents by tournament, then with probability `crossover_rate` draw one
`alpha` and produce the two opposite convex blends, otherwise keep copies
of the parents. -/
def breedPair (cfg : Config) (pop : List (ℚ × ℚ)) (fit : List FVal)
    (s : RState) : ((ℚ × ℚ) × (ℚ × ℚ)) × RState :=
  let p1 := tournament_selection pop fit cfg.pop_size s
  let p2 := tournament_selection pop fit cfg.pop_size p1.2
  let r := randU p2.2
  if r.1 < cfg.crossover_rate then
    let a := randU r.2
    ((blend a.1 p1.1 p2.1, blend (1 - a.1) p1.1 p2.1), a.2)
  else ((p1.1, p2.1), r.2)

/-- The `while len(new_population) < pop_size` breeding loop, with explicit
fuel (each pass appends at least one child, so `pop_size` passes always
suffice).  A pass selects and crosses two parents, mutates and appends the
first child, and — only if the population is still short — mutates and
appends the second child (whose mutation draws are skipped otherwise, as
the `break` sits after the append). -/
def breedAux (cfg : Config) (pop : List (ℚ × ℚ)) (fit : List FVal) :
    ℕ → List (ℚ × ℚ) → RState → List (ℚ × ℚ) × RState
  | 0, acc, s => (acc, s)
  | fuel + 1, acc, s =>
    if acc.length < cfg.pop_size then
      let cp := breedPair cfg pop fit s
      let c1 := mutateChild cfg cp.1.1 cp.2
      let acc1 := acc ++ [c1.1]
      if cfg.pop_size ≤ acc1.length then (acc1, c1.2)
      else
        let c2 := mutateChild cfg cp.1.2 c1.2
        breedAux cfg pop fit fuel (acc1 ++ [c2.1]) c2.2
    else (acc, s)

/-- The evolving state of `run_GA`: current population and fitness, the five
history lists, and the generator state. -/
structure St where
  pop : List (ℚ × ℚ)
  fit : List FVal
  best_hist : List FVal
  worst_hist : List FVal
  avg_hist : List FVal
  best_t_hist : List ℚ
  best_Q_hist : List FVal
  rs : RState

/-- One generation: record statistics of the current population, start the
next population with the elite copy, breed until `pop_size`, replace the
population and re-evaluate. -/
def step (lg : ℚ → ℚ) (piq : ℚ) (cfg : Config) (s : St) : St :=
  let bi := argminIdx s.fit
  let best_ind := s.pop.getD bi (0, 0)
  let best_fit := s.fit.getD bi FVal.nan
  let br := breedAux cfg s.pop s.fit cfg.pop_size [best_ind] s.rs
  { pop := br.1
    fit := evaluate lg piq cfg.penalty_factor br.1
    best_hist := s.best_hist ++ [best_fit]
    worst_hist := s.worst_hist ++ [maxListF s.fit]
    avg_hist := s.avg_hist ++ [meanF s.fit]
    best_t_hist := s.best_t_hist ++ [best_ind.2]
    best_Q_hist := s.best_Q_hist ++ [heat_flow lg piq best_ind.1 best_ind.2]
    rs := br.2 }

/-- `for gen in range(generations)`. -/
def loop (lg : ℚ → ℚ) (piq : ℚ) (cfg : Config) : ℕ → St → St
  | 0, s => s
  | n + 1, s => loop lg piq cfg n (step lg piq cfg s)

/-- The state after `np.random.seed(seed)`, population initialization
(column 0 = gene `k`, column 1 = gene `t`, each a block of `pop_size`
uniform draws) and the first evaluation. -/
def initSt (sf : ℕ → RSrc) (lg : ℚ → ℚ) (piq : ℚ) (cfg : Config) : St :=
  let s0 : RState := ⟨sf cfg.seed, 0, 0, 0⟩
  let ks := uniformVec cfg.bk.1 cfg.bk.2 cfg.pop_size s0
  let ts := uniformVec cfg.bt.1 cfg.bt.2 cfg.pop_size ks.2
  let pop := ks.1.zip ts.1
  { pop := pop
    fit := evaluate lg piq cfg.penalty_factor pop
    best_hist := []
    worst_hist := []
    avg_hist := []
    best_t_hist := []
    best_Q_hist := []
    rs := ts.2 }

/-- The dictionary `run_GA` returns. -/
structure Result where
  best_individual : ℚ × ℚ
  best_fitness : FVal
  best_hist : List FVal
  worst_hist : List FVal
  avg_hist : List FVal
  best_t_hist : List ℚ
  best_Q_hist : List FVal
deriving DecidableEq

/-- `run_GA`: seed the global generator (discarding its ambient state),
initialize and evaluate, run the generation loop, and return the argmin of
the final population together with the histories.  `sf` maps a seed to the
streams the seeded generator produces; `ambient` is the generator state at
call time (overwritten by the seeding, unlike in `Placa.run_GA`). -/
def run_GA (sf : ℕ → RSrc) (lg : ℚ → ℚ) (piq : ℚ) (cfg : Config)
    (ambient : RState) : Result :=
  let s := loop lg piq cfg cfg.generations (initSt sf lg piq cfg)
  let bi := argminIdx s.fit
  { best_individual := s.pop.getD bi (0, 0)
    best_fitness := s.fit.getD bi FVal.nan
    best_hist := s.best_hist
    worst_hist := s.worst_hist
    avg_hist := s.avg_hist
    best_t_hist := s.best_t_hist
    best_Q_hist := s.best_Q_hist }

/-- The population at the start of generation `g` (after `g` generational
replacements); `popAt 0` is the initial population. -/
def popAt (sf : ℕ → RSrc) (lg : ℚ → ℚ) (piq : ℚ) (cfg : Config) (g : ℕ) :
    List (ℚ × ℚ) :=
  (loop lg piq cfg g (initSt sf lg piq cfg)).pop

end Cilindro

namespace Placa

/-- `r_i = 0.03` — inner radius [m]. -/
def r_i : ℚ := 3/100

/-- `L = 1.0` — length [m]. -/
def L : ℚ := 1

/-- `T_i = 500.0` — inner temperature. -/
def T_i : ℚ := 500

/-- `T_inf = 75.0` — outer temperature. -/
def T_inf : ℚ := 75

/-- `dT = T_i - T_inf`. -/
def dT : ℚ := T_i - T_inf

/-- `h = 10.0` — convection coefficient. -/
def h : ℚ := 10

/-- `Q_max = 120.0` — heat-flow limit [W]. -/
def Q_max : ℚ := 120

/-- `t_min = 0.025`. -/
def t_min : ℚ := 1/40

/-- `t_max = 0.200`. -/
def t_max : ℚ := 1/5

/-- `k_min = 0.050`. -/
def k_min : ℚ := 1/20

/-- `k_max = 0.084`. -/
def k_max : ℚ := 21/250

/-- `heat_flow(k, t) = 2*pi*L*dT / (log(r_o/r_i)/k + 1/(h*r_o))` with
`r_o = r_i + t`. -/
def heat_flow (lg : ℚ → ℚ) (piq k t : ℚ) : FVal :=
  let r_o := r_i + t
  let denom :=
    FVal.fadd (FVal.fdiv (flog lg (r_o / r_i)) (FVal.fin k))
      (FVal.fdiv (FVal.fin 1) (FVal.fin (h * r_o)))
  FVal.fdiv (FVal.fin (2 * piq * L * dT)) denom

/-- `fitness(individual, penalty_factor)`: the hard sentinel `1e9` outside
the search box; inside it, the normalized base cost `t_norm + k_norm` plus
`(Q - Q_max)**2 * penalty_factor` when `Q > Q_max`.
The individual is the gene pair `(t, k)`. -/
def fitness (lg : ℚ → ℚ) (piq pf : ℚ) (ind : ℚ × ℚ) : FVal :=
  let t := ind.1
  let k := ind.2
  if ¬ (t_min ≤ t ∧ t ≤ t_max) ∨ ¬ (k_min ≤ k ∧ k ≤ k_max) then
    FVal.fin 1000000000
  else
    let Q := heat_flow lg piq k t
    let t_norm := (t - t_min) / (t_max - t_min)
    let k_norm := (k - k_min) / (k_max - k_min)
    let base_obj := t_norm + k_norm
    let penalty :=
      if FVal.flt (FVal.fin Q_max) Q then
        FVal.fmul (FVal.fmul (FVal.fsub Q (FVal.fin Q_max))
          (FVal.fsub Q (FVal.fin Q_max))) (FVal.fin pf)
      else FVal.fin 0
    FVal.fadd (FVal.fin base_obj) penalty

/-- `init_population(pop_size)`: column 0 = `t` draws, column 1 = `k`
draws, zipped into chromosomes `[t, k]`. -/
def init_population (pop_size : ℕ) (s : RState) : List (ℚ × ℚ) × RState :=
  let ts := uniformVec t_min t_max pop_size s
  let ks := uniformVec k_min k_max pop_size ts.2
  (ts.1.zip ks.1, ks.2)

/-- `tournament_selection(pop, fitnesses, k_tour)`: draw `k_tour` indices
with replacement, pick the drawn index whose fitness is (first) minimal,
and return that individual. -/
def tournament_selection (pop : List (ℚ × ℚ)) (fit : List FVal) (k_tour : ℕ)
    (s : RState) : (ℚ × ℚ) × RState :=
  let d := randZVec pop.length k_tour s
  let gathered := d.1.map (fun i => fit.getD i FVal.nan)
  let best_idx := d.1.getD (argminIdx gathered) 0
  (pop.getD best_idx (0, 0), d.2)

/-- `crossover(parent1, parent2, pc)`: with probability `pc` draw one
`alpha` and produce the two opposite convex blends; otherwise return
copies of the parents. -/
def crossover (p1 p2 : ℚ × ℚ) (pc : ℚ) (s : RState) :
    ((ℚ × ℚ) × (ℚ × ℚ)) × RState :=
  let r := randU s
  if r.1 < pc then
    let a := randU r.2
    ((  (a.1 * p1.1 + (1 - a.1) * p2.1, a.1 * p1.2 + (1 - a.1) * p2.2),
        (a.1 * p2.1 + (1 - a.1) * p1.1, a.1 * p2.2 + (1 - a.1) * p1.2)), a.2)
  else ((p1, p2), r.2)

/-- `mutate(individual, pm, sigma_t, sigma_k)`: per-gene coin flips and
gaussian perturbations, then an unconditional clip of both genes into the
search box. -/
def mutate (individual : ℚ × ℚ) (pm sigma_t sigma_k : ℚ) (s : RState) :
    (ℚ × ℚ) × RState :=
  let t0 := individual.1
  let k0 := individual.2
  let r1 := randU s
  let tp :=
    if r1.1 < pm then
      let g := randN r1.2
      (t0 + g.1 * sigma_t, g.2)
    else (t0, r1.2)
  let r2 := randU tp.2
  let kp :=
    if r2.1 < pm then
      let g := randN r2.2
      (k0 + g.1 * sigma_k, g.2)
    else (k0, r2.2)
  ((qclip tp.1 t_min t_max, qclip kp.1 k_min k_max), kp.2)

/-- `[fitness(ind, penalty_factor) for ind in pop]`. -/
def evaluate (lg : ℚ → ℚ) (piq pf : ℚ) (pop : List (ℚ × ℚ)) : List FVal :=
  pop.map (fitness lg piq pf)

/-- The `while len(new_pop) < pop_size` loop with explicit fuel: select two
parents (tournament size 3), cross, mutate both children (the second child
consumes its mutation draws even when it is then discarded), append the
first child, and append the second only if the population is still short. -/
def breedAux (N : ℕ) (pc pm : ℚ) (pop : List (ℚ × ℚ)) (fit : List FVal) :
    ℕ → List (ℚ × ℚ) → RState → List (ℚ × ℚ) × RState
  | 0, acc, s => (acc, s)
  | fuel + 1, acc, s =>
    if acc.length < N then
      let p1 := tournament_selection pop fit 3 s
      let p2 := tournament_selection pop fit 3 p1.2
      let cp := crossover p1.1 p2.1 pc p2.2
      let c1 := mutate cp.1.1 pm (1/200) (1/500) cp.2
      let c2 := mutate cp.1.2 pm (1/200) (1/500) c1.2
      let acc1 := acc ++ [c1.1]
      let acc2 := if acc1.length < N then acc1 ++ [c2.1] else acc1
      breedAux N pc pm pop fit fuel acc2 c2.2
    else (acc, s)

/-- The evolving state of `Placa.run_GA`: population, fitness, the six
history lists, and the generator state. -/
structure St where
  pop : List (ℚ × ℚ)
  fit : List FVal
  best_t_hist : List ℚ
  best_k_hist : List ℚ
  best_Q_hist : List FVal
  best_fit_hist : List FVal
  worst_fit_hist : List FVal
  mean_fit_hist : List FVal
  rs : RState

/-- One generation of `Placa.run_GA`. -/
def step (lg : ℚ → ℚ) (piq : ℚ) (N : ℕ) (pc pm pf : ℚ) (s : St) : St :=
  let bi := argminIdx s.fit
  let wi := argmaxIdx s.fit
  let best_ind := s.pop.getD bi (0, 0)
  let best_fit := s.fit.getD bi FVal.nan
  let worst_fit := s.fit.getD wi FVal.nan
  let mean_fit := meanF s.fit
  let br := breedAux N pc pm s.pop s.fit N [best_ind] s.rs
  { pop := br.1
    fit := evaluate lg piq pf br.1
    best_t_hist := s.best_t_hist ++ [best_ind.1]
    best_k_hist := s.best_k_hist ++ [best_ind.2]
    best_Q_hist := s.best_Q_hist ++ [heat_flow lg piq best_ind.2 best_ind.1]
    best_fit_hist := s.best_fit_hist ++ [best_fit]
    worst_fit_hist := s.worst_fit_hist ++ [worst_fit]
    mean_fit_hist := s.mean_fit_hist ++ [mean_fit]
    rs := br.2 }

/-- `for gen in range(generations)`. -/
def loop (lg : ℚ → ℚ) (piq : ℚ) (N : ℕ) (pc pm pf : ℚ) : ℕ → St → St
  | 0, s => s
  | n + 1, s => loop lg piq N pc pm pf n (step lg piq N pc pm pf s)

/-- The state after population initialization and the first evaluation.
Unlike `Cilindro.run_GA` there is no seeding: the draws start at the
ambient state of the global generator. -/
def initSt (lg : ℚ → ℚ) (piq : ℚ) (N : ℕ) (pf : ℚ) (ambient : RState) : St :=
  let ip := init_population N ambient
  { pop := ip.1
    fit := evaluate lg piq pf ip.1
    best_t_hist := []
    best_k_hist := []
    best_Q_hist := []
    best_fit_hist := []
    worst_fit_hist := []
    mean_fit_hist := []
    rs := ip.2 }

/-- What `Placa.run_GA` returns: `t_best, k_best, Q_best, history`. -/
structure Result where
  t_best : ℚ
  k_best : ℚ
  Q_best : FVal
  t_hist : List ℚ
  k_hist : List ℚ
  Q_hist : List FVal
  best_fit : List FVal
  mean_fit : List FVal
  worst_fit : List FVal
deriving DecidableEq

/-- `run_GA(pop_size, generations, pc, pm, penalty_factor)`: no seed
parameter and no seeding — the run consumes the global generator from its
ambient state. -/
def run_GA (lg : ℚ → ℚ) (piq : ℚ) (N G : ℕ) (pc pm pf : ℚ)
    (ambient : RState) : Result :=
  let s := loop lg piq N pc pm pf G (initSt lg piq N pf ambient)
  let bi := argminIdx s.fit
  let best := s.pop.getD bi (0, 0)
  { t_best := best.1
    k_best := best.2
    Q_best := heat_flow lg piq best.2 best.1
    t_hist := s.best_t_hist
    k_hist := s.best_k_hist
    Q_hist := s.best_Q_hist
    best_fit := s.best_fit_hist
    mean_fit := s.mean_fit_hist
    worst_fit := s.worst_fit_hist }

/-- The population at the start of generation `g`. -/
def popAt (lg : ℚ → ℚ) (piq : ℚ) (N : ℕ) (pc pm pf : ℚ) (ambient : RState)
    (g : ℕ) : List (ℚ × ℚ) :=
  (loop lg piq N pc pm pf g (initSt lg piq N pf ambient)).pop

end Placa

/-- Gene `x` lies in the closed range `b = (low, high)`. -/
def inRange (b : ℚ × ℚ) (x : ℚ) : Prop := b.1 ≤ x ∧ x ≤ b.2

/-- Both genes of `ind` lie in their declared ranges. -/
def InBox (b1 b2 : ℚ × ℚ) (ind : ℚ × ℚ) : Prop :=
  inRange b1 ind.1 ∧ inRange b2 ind.2

instance (b : ℚ × ℚ) (x : ℚ) : Decidable (inRange b x) := by
  unfold inRange; infer_instance

instance (b1 b2 : ℚ × ℚ) (ind : ℚ × ℚ) : Decidable (InBox b1 b2 ind) := by
  unfold InBox; infer_instance

theorem uniform_mem (low high : ℚ) (hlh : low ≤ high) (s : RState)
    (hv : ValidSrc s.src) :
    low ≤ (uniform low high s).1 ∧ (uniform low high s).1 ≤ high := by
  obtain ⟨h0, h1⟩ := hv s.up
  unfold uniform randU
  dsimp only
  constructor
  · nlinarith
  · nlinarith

theorem uniformVec_src (low high : ℚ) :
    ∀ (n : ℕ) (s : RState), (uniformVec low high n s).2.src = s.src := by
  intro n
  induction n with
  | zero => intro s; rfl
  | succ m ih => intro s; exact ih _

theorem uniformVec_mem (low high : ℚ) (hlh : low ≤ high) :
    ∀ (n : ℕ) (s : RState), ValidSrc s.src →
      ∀ x ∈ (uniformVec low high n s).1, low ≤ x ∧ x ≤ high := by
  intro n
  induction n with
  | zero => intro s _ x hx; simp [uniformVec] at hx
  | succ m ih =>
    intro s hv x hx
    simp only [uniformVec, List.mem_cons] at hx
    rcases hx with h | h
    · exact h ▸ uniform_mem low high hlh s hv
    · exact ih _ (by rw [show (uniform low high s).2.src = s.src from rfl]; exact hv) x h

theorem uniformVec_len (low high : ℚ) :
    ∀ (n : ℕ) (s : RState), (uniformVec low high n s).1.length = n := by
  intro n
  induction n with
  | zero => intro s; rfl
  | succ m ih => intro s; simp [uniformVec, ih]

/-- A point `a*x + (1-a)*y` between two in-range points is in range. -/
theorem convex_mem (a x y low high : ℚ) (h0 : 0 ≤ a) (h1 : a ≤ 1)
    (hx : low ≤ x ∧ x ≤ high) (hy : low ≤ y ∧ y ≤ high) :
    low ≤ a * x + (1 - a) * y ∧ a * x + (1 - a) * y ≤ high := by
  obtain ⟨hx1, hx2⟩ := hx
  obtain ⟨hy1, hy2⟩ := hy
  constructor
  · nlinarith
  · nlinarith

namespace Cilindro

theorem objective_ne_nan (lg : ℚ → ℚ) (piq pf : ℚ) (hpf : 0 < pf)
    (ind : ℚ × ℚ) : objective lg piq pf ind ≠ FVal.nan := by
  unfold objective
  cases hQ : heat_flow lg piq ind.1 ind.2 <;>
    simp only [FVal.flt, FVal.fsub, FVal.fneg, FVal.fadd, FVal.fmul] <;>
    split_ifs <;>
    simp_all [FVal.fadd, FVal.fmul, FVal.fneg, hpf]

theorem evaluate_ne_nan (lg : ℚ → ℚ) (piq pf : ℚ) (hpf : 0 < pf)
    (pop : List (ℚ × ℚ)) : ∀ v ∈ evaluate lg piq pf pop, v ≠ FVal.nan := by
  intro v hv
  obtain ⟨ind, _, rfl⟩ := List.mem_map.mp hv
  exact objective_ne_nan lg piq pf hpf ind

theorem tournament_selection_src (pop : List (ℚ × ℚ)) (fit : List FVal)
    (n : ℕ) (s : RState) : (tournament_selection pop fit n s).2.src = s.src :=
  rfl

theorem tournament_selection_mem (pop : List (ℚ × ℚ)) (fit : List FVal)
    (n : ℕ) (s : RState) (hn : 0 < n) (hlen : pop.length = n) :
    (tournament_selection pop fit n s).1 ∈ pop := by
  unfold tournament_selection randZ
  dsimp only
  split <;>
    exact getD_mem _ _ (by rw [hlen]; exact Nat.mod_lt _ hn) _

theorem mutateGene_src (low high mr ms x : ℚ) (s : RState) :
    (mutateGene low high mr ms x s).2.src = s.src := by
  unfold mutateGene
  dsimp only
  split <;> rfl

theorem mutateGene_mem (low high mr ms x : ℚ) (hlh : low ≤ high)
    (hx : low ≤ x ∧ x ≤ high) (s : RState) :
    low ≤ (mutateGene low high mr ms x s).1 ∧
      (mutateGene low high mr ms x s).1 ≤ high := by
  unfold mutateGene
  dsimp only
  split
  · exact qclip_mem _ _ _ hlh
  · exact hx

theorem mutateChild_src (cfg : Config) (c : ℚ × ℚ) (s : RState) :
    (mutateChild cfg c s).2.src = s.src := by
  unfold mutateChild
  rw [mutateGene_src, mutateGene_src]

theorem mutateChild_mem (cfg : Config) (c : ℚ × ℚ) (s : RState)
    (hbk : cfg.bk.1 ≤ cfg.bk.2) (hbt : cfg.bt.1 ≤ cfg.bt.2)
    (hc : InBox cfg.bk cfg.bt c) :
    InBox cfg.bk cfg.bt (mutateChild cfg c s).1 := by
  obtain ⟨hc1, hc2⟩ := hc
  exact ⟨mutateGene_mem _ _ _ _ _ hbk hc1 s,
    mutateGene_mem _ _ _ _ _ hbt hc2 _⟩

theorem blend_mem (a : ℚ) (p q : ℚ × ℚ) (b1 b2 : ℚ × ℚ)
    (h0 : 0 ≤ a) (h1 : a ≤ 1) (hp : InBox b1 b2 p) (hq : InBox b1 b2 q) :
    InBox b1 b2 (blend a p q) := by
  obtain ⟨hp1, hp2⟩ := hp
  obtain ⟨hq1, hq2⟩ := hq
  exact ⟨convex_mem a p.1 q.1 b1.1 b1.2 h0 h1 hp1 hq1,
    convex_mem a p.2 q.2 b2.1 b2.2 h0 h1 hp2 hq2⟩

end Cilindro


namespace Cilindro

theorem evaluate_len (lg : ℚ → ℚ) (piq pf : ℚ) (pop : List (ℚ × ℚ)) :
    (evaluate lg piq pf pop).length = pop.length := by
  simp [evaluate]

theorem breedPair_src (cfg : Config) (pop : List (ℚ × ℚ)) (fit : List FVal)
    (s : RState) : (breedPair cfg pop fit s).2.src = s.src := by
  unfold breedPair
  dsimp only
  split <;> rfl

theorem breedPair_box (cfg : Config) (pop : List (ℚ × ℚ)) (fit : List FVal)
    (s : RState) (hN : 0 < cfg.pop_size) (hpop : pop.length = cfg.pop_size)
    (hpb : ∀ x ∈ pop, InBox cfg.bk cfg.bt x) (hv : ValidSrc s.src) :
    InBox cfg.bk cfg.bt (breedPair cfg pop fit s).1.1 ∧
      InBox cfg.bk cfg.bt (breedPair cfg pop fit s).1.2 := by
  have hp1 : InBox cfg.bk cfg.bt
      (tournament_selection pop fit cfg.pop_size s).1 :=
    hpb _ (tournament_selection_mem pop fit cfg.pop_size s hN hpop)
  have hp2 : InBox cfg.bk cfg.bt
      (tournament_selection pop fit cfg.pop_size
        (tournament_selection pop fit cfg.pop_size s).2).1 :=
    hpb _ (tournament_selection_mem pop fit cfg.pop_size _ hN hpop)
  unfold breedPair
  dsimp only
  split
  · have hsrc : (randU (tournament_selection pop fit cfg.pop_size
        (tournament_selection pop fit cfg.pop_size s).2).2).2.src = s.src := rfl
    have h0 : (0 : ℚ) ≤ (randU (randU (tournament_selection pop fit cfg.pop_size
        (tournament_selection pop fit cfg.pop_size s).2).2).2).1 := by
      simpa [randU] using (hv _).1
    have h1 : (randU (randU (tournament_selection pop fit cfg.pop_size
        (tournament_selection pop fit cfg.pop_size s).2).2).2).1 ≤ 1 := by
      have hlt : (randU (randU (tournament_selection pop fit cfg.pop_size
          (tournament_selection pop fit cfg.pop_size s).2).2).2).1 < 1 := by
        simpa [randU] using (hv _).2
      linarith
    exact ⟨blend_mem _ _ _ _ _ h0 h1 hp1 hp2,
      blend_mem _ _ _ _ _ (by linarith) (by linarith) hp1 hp2⟩
  · exact ⟨hp1, hp2⟩

theorem breedAux_prefix (cfg : Config) (pop : List (ℚ × ℚ)) (fit : List FVal) :
    ∀ (fuel : ℕ) (acc : List (ℚ × ℚ)) (s : RState),
      ∃ tl, (breedAux cfg pop fit fuel acc s).1 = acc ++ tl := by
  intro fuel
  induction fuel with
  | zero => intro acc s; exact ⟨[], by simp [breedAux]⟩
  | succ m ih =>
    intro acc s
    simp only [breedAux]
    split
    · split
      · exact ⟨_, rfl⟩
      · obtain ⟨tl, htl⟩ := ih _ _
        exact ⟨_, by rw [htl, List.append_assoc, List.append_assoc]⟩
    · exact ⟨[], by simp⟩

theorem breedAux_len (cfg : Config) (pop : List (ℚ × ℚ)) (fit : List FVal) :
    ∀ (fuel : ℕ) (acc : List (ℚ × ℚ)) (s : RState),
      acc.length ≤ cfg.pop_size → cfg.pop_size ≤ acc.length + fuel →
      ((breedAux cfg pop fit fuel acc s).1).length = cfg.pop_size := by
  intro fuel
  induction fuel with
  | zero =>
    intro acc s h1 h2
    simp only [breedAux]
    omega
  | succ m ih =>
    intro acc s h1 h2
    simp only [breedAux]
    split
    · split
      · rename_i hlt hfull
        simp only [List.length_append, List.length_cons, List.length_nil] at hfull ⊢
        omega
      · rename_i hlt hfull
        rw [ih _ _ ?_ ?_] <;>
          simp only [List.length_append, List.length_cons, List.length_nil] at hfull ⊢ <;>
          omega
    · rename_i hlt
      dsimp only
      omega

theorem breedAux_box (cfg : Config) (pop : List (ℚ × ℚ)) (fit : List FVal)
    (hbk : cfg.bk.1 ≤ cfg.bk.2) (hbt : cfg.bt.1 ≤ cfg.bt.2)
    (hN : 0 < cfg.pop_size) (hpop : pop.length = cfg.pop_size)
    (hpb : ∀ x ∈ pop, InBox cfg.bk cfg.bt x) :
    ∀ (fuel : ℕ) (acc : List (ℚ × ℚ)) (s : RState), ValidSrc s.src →
      (∀ x ∈ acc, InBox cfg.bk cfg.bt x) →
      (∀ x ∈ (breedAux cfg pop fit fuel acc s).1, InBox cfg.bk cfg.bt x) := by
  intro fuel
  induction fuel with
  | zero =>
    intro acc s _ hacc
    simpa [breedAux] using hacc
  | succ m ih =>
    intro acc s hv hacc
    have hcp := breedPair_box cfg pop fit s hN hpop hpb hv
    have hc1 : InBox cfg.bk cfg.bt
        (mutateChild cfg (breedPair cfg pop fit s).1.1
          (breedPair cfg pop fit s).2).1 :=
      mutateChild_mem cfg _ _ hbk hbt hcp.1
    have hc2 : InBox cfg.bk cfg.bt
        (mutateChild cfg (breedPair cfg pop fit s).1.2
          (mutateChild cfg (breedPair cfg pop fit s).1.1
            (breedPair cfg pop fit s).2).2).1 :=
      mutateChild_mem cfg _ _ hbk hbt hcp.2
    simp only [breedAux]
    split
    · split
      · intro x hx
        rcases List.mem_append.mp hx with h | h
        · exact hacc x h
        · rcases List.mem_singleton.mp h with rfl
          exact hc1
      · apply ih
        · rw [mutateChild_src, mutateChild_src, breedPair_src]
          exact hv
        · intro x hx
          rcases List.mem_append.mp hx with h | h
          · rcases List.mem_append.mp h with h2 | h2
            · exact hacc x h2
            · rcases List.mem_singleton.mp h2 with rfl
              exact hc1
          · rcases List.mem_singleton.mp h with rfl
            exact hc2
    · simpa using hacc

end Cilindro

namespace Cilindro

/-- The basic loop invariant: the fitness array is the evaluation of the
current population and the population has exactly `pop_size` members. -/
def GoodSt (lg : ℚ → ℚ) (piq : ℚ) (cfg : Config) (s : St) : Prop :=
  s.fit = evaluate lg piq cfg.penalty_factor s.pop ∧
    s.pop.length = cfg.pop_size

theorem step_pop (lg : ℚ → ℚ) (piq : ℚ) (cfg : Config) (s : St) :
    (step lg piq cfg s).pop =
      (breedAux cfg s.pop s.fit cfg.pop_size
        [s.pop.getD (argminIdx s.fit) (0, 0)] s.rs).1 := rfl

theorem step_fit (lg : ℚ → ℚ) (piq : ℚ) (cfg : Config) (s : St) :
    (step lg piq cfg s).fit =
      evaluate lg piq cfg.penalty_factor (step lg piq cfg s).pop := rfl

theorem step_best_hist (lg : ℚ → ℚ) (piq : ℚ) (cfg : Config) (s : St) :
    (step lg piq cfg s).best_hist = s.best_hist ++ [minD s.fit] := rfl

theorem step_good (lg : ℚ → ℚ) (piq : ℚ) (cfg : Config)
    (hN : 1 ≤ cfg.pop_size) (s : St) (hs : GoodSt lg piq cfg s) :
    GoodSt lg piq cfg (step lg piq cfg s) := by
  refine ⟨step_fit lg piq cfg s, ?_⟩
  rw [step_pop]
  exact breedAux_len cfg s.pop s.fit cfg.pop_size _ s.rs (by simpa using hN)
    (by simp only [List.length_cons, List.length_nil]; omega)

theorem good_fit_len (lg : ℚ → ℚ) (piq : ℚ) (cfg : Config) (s : St)
    (hs : GoodSt lg piq cfg s) : s.fit.length = cfg.pop_size := by
  rw [hs.1, evaluate_len, hs.2]

theorem good_fit_ne_nil (lg : ℚ → ℚ) (piq : ℚ) (cfg : Config)
    (hN : 1 ≤ cfg.pop_size) (s : St) (hs : GoodSt lg piq cfg s) :
    s.fit ≠ [] := by
  intro hc
  have hl := good_fit_len lg piq cfg s hs
  rw [hc] at hl
  simp only [List.length_nil] at hl
  omega

theorem good_minD_ne_nan (lg : ℚ → ℚ) (piq : ℚ) (cfg : Config)
    (hpf : 0 < cfg.penalty_factor) (hN : 1 ≤ cfg.pop_size) (s : St)
    (hs : GoodSt lg piq cfg s) : minD s.fit ≠ FVal.nan := by
  apply minD_ne_nan
  · rw [hs.1]
    exact evaluate_ne_nan lg piq cfg.penalty_factor hpf s.pop
  · exact good_fit_ne_nil lg piq cfg hN s hs

/-- Elitism: one unmodified copy of the current best individual is the
first member of the next population. -/
theorem step_elite (lg : ℚ → ℚ) (piq : ℚ) (cfg : Config) (s : St) :
    (step lg piq cfg s).pop.getD 0 (0, 0) =
      s.pop.getD (argminIdx s.fit) (0, 0) := by
  rw [step_pop]
  obtain ⟨tl, htl⟩ := breedAux_prefix cfg s.pop s.fit cfg.pop_size
    [s.pop.getD (argminIdx s.fit) (0, 0)] s.rs
  rw [htl]
  simp

/-- The recorded best of generation `g+1` is (weakly) below the recorded
best of generation `g`: the elite survives unmodified and the argmin of
the next fitness array can only improve on it. -/
theorem step_min_le (lg : ℚ → ℚ) (piq : ℚ) (cfg : Config)
    (hpf : 0 < cfg.penalty_factor) (hN : 1 ≤ cfg.pop_size) (s : St)
    (hs : GoodSt lg piq cfg s) :
    FVal.fle (minD (step lg piq cfg s).fit) (minD s.fit) = true := by
  obtain ⟨hfit, hlen⟩ := hs
  have hlen2 : (step lg piq cfg s).pop.length = cfg.pop_size :=
    (step_good lg piq cfg hN s ⟨hfit, hlen⟩).2
  have hpos : 0 < (step lg piq cfg s).pop.length := by omega
  have hflen : (step lg piq cfg s).fit.length = (step lg piq cfg s).pop.length := by
    rw [step_fit, evaluate_len]
  have hne : s.fit ≠ [] := good_fit_ne_nil lg piq cfg hN s ⟨hfit, hlen⟩
  have hfl : s.fit.length = s.pop.length := by
    rw [hfit, evaluate_len]
  -- the recorded best of this generation is the objective of the elite
  have key : minD s.fit = objective lg piq cfg.penalty_factor
      (s.pop.getD (argminIdx s.fit) (0, 0)) := by
    unfold minD
    set bi := argminIdx s.fit with hbid
    have hbi2 : bi < s.pop.length := by
      have := argminIdx_lt s.fit hne
      omega
    rw [hfit]
    unfold evaluate
    exact getD_map_eq _ _ _ hbi2 _ (0, 0)
  -- the fitness of the elite, sitting at index 0 of the new array,
  -- is the recorded best of this generation
  have h0 : (step lg piq cfg s).fit.getD 0 FVal.nan = minD s.fit := by
    rw [step_fit]
    unfold evaluate
    rw [getD_map_eq _ _ 0 hpos _ (0, 0), step_elite, key]
  have hnn : ∀ w ∈ (step lg piq cfg s).fit, w ≠ FVal.nan := by
    rw [step_fit]
    exact evaluate_ne_nan lg piq cfg.penalty_factor hpf _
  have hmem : (step lg piq cfg s).fit.getD 0 FVal.nan ∈ (step lg piq cfg s).fit :=
    getD_mem _ 0 (by omega) _
  have := minD_le_mem (step lg piq cfg s).fit hnn _ hmem
  rwa [h0] at this

theorem loop_succ_right (lg : ℚ → ℚ) (piq : ℚ) (cfg : Config) :
    ∀ (n : ℕ) (s : St),
      loop lg piq cfg (n + 1) s = step lg piq cfg (loop lg piq cfg n s) := by
  intro n
  induction n with
  | zero => intro s; rfl
  | succ m ih =>
    intro s
    show loop lg piq cfg (m + 1) (step lg piq cfg s) = _
    rw [ih (step lg piq cfg s)]
    rfl

theorem loop_good (lg : ℚ → ℚ) (piq : ℚ) (cfg : Config)
    (hN : 1 ≤ cfg.pop_size) :
    ∀ (n : ℕ) (s : St), GoodSt lg piq cfg s →
      GoodSt lg piq cfg (loop lg piq cfg n s) := by
  intro n
  induction n with
  | zero => intro s hs; exact hs
  | succ m ih =>
    intro s hs
    rw [loop_succ_right]
    exact step_good lg piq cfg hN _ (ih s hs)

theorem loop_min_le (lg : ℚ → ℚ) (piq : ℚ) (cfg : Config)
    (hpf : 0 < cfg.penalty_factor) (hN : 1 ≤ cfg.pop_size) :
    ∀ (m n : ℕ) (s : St), GoodSt lg piq cfg s → m ≤ n →
      FVal.fle (minD (loop lg piq cfg n s).fit)
        (minD (loop lg piq cfg m s).fit) = true := by
  intro m n
  induction n with
  | zero =>
    intro s hs hmn
    have : m = 0 := by omega
    subst this
    exact FVal.fle_refl _ (good_minD_ne_nan lg piq cfg hpf hN _ hs)
  | succ p ih =>
    intro s hs hmn
    rcases Nat.lt_or_ge m (p + 1) with h | h
    · have h1 := ih s hs (by omega)
      have h2 : FVal.fle (minD (loop lg piq cfg (p + 1) s).fit)
          (minD (loop lg piq cfg p s).fit) = true := by
        rw [loop_succ_right]
        exact step_min_le lg piq cfg hpf hN _ (loop_good lg piq cfg hN p s hs)
      exact FVal.fle_trans h2 h1
    · have : m = p + 1 := by omega
      subst this
      exact FVal.fle_refl _
        (good_minD_ne_nan lg piq cfg hpf hN _ (loop_good lg piq cfg hN _ s hs))

theorem loop_best_hist (lg : ℚ → ℚ) (piq : ℚ) (cfg : Config) :
    ∀ (n : ℕ) (s : St),
      (loop lg piq cfg n s).best_hist =
        s.best_hist ++
          (List.range n).map (fun g => minD ((loop lg piq cfg g s).fit)) := by
  intro n
  induction n with
  | zero => intro s; simp [loop]
  | succ m ih =>
    intro s
    rw [loop_succ_right, step_best_hist, ih s, List.range_succ]
    simp

theorem init_good (sf : ℕ → RSrc) (lg : ℚ → ℚ) (piq : ℚ) (cfg : Config) :
    GoodSt lg piq cfg (initSt sf lg piq cfg) := by
  refine ⟨rfl, ?_⟩
  unfold initSt
  simp [uniformVec_len]

end Cilindro

theorem randZVec_lt (bound : ℕ) (hb : 0 < bound) :
    ∀ (n : ℕ) (s : RState), ∀ i ∈ (randZVec bound n s).1, i < bound := by
  intro n
  induction n with
  | zero => intro s i hi; simp [randZVec] at hi
  | succ m ih =>
    intro s i hi
    simp only [randZVec, List.mem_cons] at hi
    rcases hi with h | h
    · rw [h]
      exact Nat.mod_lt _ hb
    · exact ih _ i h

theorem randZVec_src (bound : ℕ) :
    ∀ (n : ℕ) (s : RState), (randZVec bound n s).2.src = s.src := by
  intro n
  induction n with
  | zero => intro s; rfl
  | succ m ih => intro s; exact ih _

theorem randZVec_len (bound : ℕ) :
    ∀ (n : ℕ) (s : RState), (randZVec bound n s).1.length = n := by
  intro n
  induction n with
  | zero => intro s; rfl
  | succ m ih => intro s; simp [randZVec, ih]

theorem getD_lt_of_forall_lt (l : List ℕ) (j b : ℕ) (hb : 0 < b)
    (hl : ∀ i ∈ l, i < b) : l.getD j 0 < b := by
  rcases Nat.lt_or_ge j l.length with h | h
  · exact hl _ (getD_mem l j h 0)
  · rw [List.getD_eq_default _ _ h]
    exact hb

namespace Placa

theorem fitness_ne_nan (lg : ℚ → ℚ) (piq pf : ℚ) (hpf : 0 < pf)
    (ind : ℚ × ℚ) : fitness lg piq pf ind ≠ FVal.nan := by
  unfold fitness
  dsimp only
  split
  · simp
  · cases hQ : heat_flow lg piq ind.2 ind.1 <;>
      simp only [FVal.flt, FVal.fsub, FVal.fneg, FVal.fadd, FVal.fmul] <;>
      split_ifs <;>
      simp_all [FVal.fadd, FVal.fmul, FVal.fneg, hpf]

theorem evaluate_ne_nan_p (lg : ℚ → ℚ) (piq pf : ℚ) (hpf : 0 < pf)
    (pop : List (ℚ × ℚ)) : ∀ v ∈ evaluate lg piq pf pop, v ≠ FVal.nan := by
  intro v hv
  obtain ⟨ind, _, rfl⟩ := List.mem_map.mp hv
  exact fitness_ne_nan lg piq pf hpf ind

theorem evaluate_len_p (lg : ℚ → ℚ) (piq pf : ℚ) (pop : List (ℚ × ℚ)) :
    (evaluate lg piq pf pop).length = pop.length := by
  simp [evaluate]

theorem tournament_selection_src_p (pop : List (ℚ × ℚ)) (fit : List FVal)
    (k_tour : ℕ) (s : RState) :
    (tournament_selection pop fit k_tour s).2.src = s.src := by
  unfold tournament_selection
  exact randZVec_src _ _ _

theorem tournament_selection_mem_p (pop : List (ℚ × ℚ)) (fit : List FVal)
    (k_tour : ℕ) (s : RState) (hp : 0 < pop.length) :
    (tournament_selection pop fit k_tour s).1 ∈ pop := by
  unfold tournament_selection
  dsimp only
  apply getD_mem
  exact getD_lt_of_forall_lt _ _ _ hp (randZVec_lt _ hp _ _)

/-- The `placa` search box: `t` in `[t_min, t_max]`, `k` in `[k_min, k_max]`. -/
def boxT : ℚ × ℚ := (t_min, t_max)

/-- The `k` range of the `placa` search box. -/
def boxK : ℚ × ℚ := (k_min, k_max)

theorem mutate_src (individual : ℚ × ℚ) (pm sigma_t sigma_k : ℚ)
    (s : RState) : (mutate individual pm sigma_t sigma_k s).2.src = s.src := by
  unfold mutate
  dsimp only
  split <;> split <;> rfl

/-- `mutate` always clips both genes, so its output is in the search box
regardless of the input. -/
theorem mutate_box (individual : ℚ × ℚ) (pm sigma_t sigma_k : ℚ)
    (s : RState) : InBox boxT boxK (mutate individual pm sigma_t sigma_k s).1 := by
  unfold mutate
  dsimp only
  have ht : t_min ≤ t_max := by norm_num [t_min, t_max]
  have hk : k_min ≤ k_max := by norm_num [k_min, k_max]
  split <;> split <;>
    exact ⟨qclip_mem _ _ _ ht, qclip_mem _ _ _ hk⟩

theorem crossover_src (p1 p2 : ℚ × ℚ) (pc : ℚ) (s : RState) :
    (crossover p1 p2 pc s).2.src = s.src := by
  unfold crossover
  dsimp only
  split <;> rfl

theorem breedAux_prefix_p (N : ℕ) (pc pm : ℚ) (pop : List (ℚ × ℚ))
    (fit : List FVal) :
    ∀ (fuel : ℕ) (acc : List (ℚ × ℚ)) (s : RState),
      ∃ tl, (breedAux N pc pm pop fit fuel acc s).1 = acc ++ tl := by
  intro fuel
  induction fuel with
  | zero => intro acc s; exact ⟨[], by simp [breedAux]⟩
  | succ m ih =>
    intro acc s
    simp only [breedAux]
    split
    · split
      · obtain ⟨tl, htl⟩ := ih _ _
        exact ⟨_, by rw [htl, List.append_assoc, List.append_assoc]⟩
      · obtain ⟨tl, htl⟩ := ih _ _
        exact ⟨_, by rw [htl, List.append_assoc]⟩
    · exact ⟨[], by simp⟩

theorem breedAux_len_p (N : ℕ) (pc pm : ℚ) (pop : List (ℚ × ℚ))
    (fit : List FVal) :
    ∀ (fuel : ℕ) (acc : List (ℚ × ℚ)) (s : RState),
      acc.length ≤ N → N ≤ acc.length + fuel →
      ((breedAux N pc pm pop fit fuel acc s).1).length = N := by
  intro fuel
  induction fuel with
  | zero =>
    intro acc s h1 h2
    simp only [breedAux]
    omega
  | succ m ih =>
    intro acc s h1 h2
    simp only [breedAux]
    split
    · split
      · rename_i hlt hshort
        rw [ih _ _ ?_ ?_] <;>
          simp only [List.length_append, List.length_cons, List.length_nil] at hshort ⊢ <;>
          omega
      · rename_i hlt hshort
        rw [ih _ _ ?_ ?_] <;>
          simp only [List.length_append, List.length_cons, List.length_nil] at hshort ⊢ <;>
          omega
    · rename_i hlt
      dsimp only
      omega

theorem breedAux_box_p (N : ℕ) (pc pm : ℚ) (pop : List (ℚ × ℚ))
    (fit : List FVal) :
    ∀ (fuel : ℕ) (acc : List (ℚ × ℚ)) (s : RState),
      (∀ x ∈ acc, InBox boxT boxK x) →
      (∀ x ∈ (breedAux N pc pm pop fit fuel acc s).1, InBox boxT boxK x) := by
  intro fuel
  induction fuel with
  | zero =>
    intro acc s hacc
    simpa [breedAux] using hacc
  | succ m ih =>
    intro acc s hacc
    simp only [breedAux]
    split
    · apply ih
      intro x hx
      split at hx
      · rcases List.mem_append.mp hx with h | h
        · rcases List.mem_append.mp h with h2 | h2
          · exact hacc x h2
          · rcases List.mem_singleton.mp h2 with rfl
            exact mutate_box _ _ _ _ _
        · rcases List.mem_singleton.mp h with rfl
          exact mutate_box _ _ _ _ _
      · rcases List.mem_append.mp hx with h | h
        · exact hacc x h
        · rcases List.mem_singleton.mp h with rfl
          exact mutate_box _ _ _ _ _
    · simpa using hacc

end Placa

namespace Placa

/-- The basic loop invariant for `Placa.run_GA`. -/
def GoodSt (lg : ℚ → ℚ) (piq : ℚ) (N : ℕ) (pf : ℚ) (s : St) : Prop :=
  s.fit = evaluate lg piq pf s.pop ∧ s.pop.length = N

theorem step_pop_p (lg : ℚ → ℚ) (piq : ℚ) (N : ℕ) (pc pm pf : ℚ) (s : St) :
    (step lg piq N pc pm pf s).pop =
      (breedAux N pc pm s.pop s.fit N
        [s.pop.getD (argminIdx s.fit) (0, 0)] s.rs).1 := rfl

theorem step_fit_p (lg : ℚ → ℚ) (piq : ℚ) (N : ℕ) (pc pm pf : ℚ) (s : St) :
    (step lg piq N pc pm pf s).fit =
      evaluate lg piq pf (step lg piq N pc pm pf s).pop := rfl

theorem step_best_hist_p (lg : ℚ → ℚ) (piq : ℚ) (N : ℕ) (pc pm pf : ℚ) (s : St) :
    (step lg piq N pc pm pf s).best_fit_hist =
      s.best_fit_hist ++ [minD s.fit] := rfl

theorem step_good_p (lg : ℚ → ℚ) (piq : ℚ) (N : ℕ) (pc pm pf : ℚ)
    (hN : 1 ≤ N) (s : St) (hs : GoodSt lg piq N pf s) :
    GoodSt lg piq N pf (step lg piq N pc pm pf s) := by
  refine ⟨step_fit_p lg piq N pc pm pf s, ?_⟩
  rw [step_pop_p]
  exact breedAux_len_p N pc pm s.pop s.fit N _ s.rs (by simpa using hN)
    (by simp only [List.length_cons, List.length_nil]; omega)

theorem good_fit_len_p (lg : ℚ → ℚ) (piq : ℚ) (N : ℕ) (pf : ℚ) (s : St)
    (hs : GoodSt lg piq N pf s) : s.fit.length = N := by
  rw [hs.1, evaluate_len_p, hs.2]

theorem good_fit_ne_nil_p (lg : ℚ → ℚ) (piq : ℚ) (N : ℕ) (pf : ℚ)
    (hN : 1 ≤ N) (s : St) (hs : GoodSt lg piq N pf s) : s.fit ≠ [] := by
  intro hc
  have hl := good_fit_len_p lg piq N pf s hs
  rw [hc] at hl
  simp only [List.length_nil] at hl
  omega

theorem good_minD_ne_nan_p (lg : ℚ → ℚ) (piq : ℚ) (N : ℕ) (pf : ℚ)
    (hpf : 0 < pf) (hN : 1 ≤ N) (s : St) (hs : GoodSt lg piq N pf s) :
    minD s.fit ≠ FVal.nan := by
  apply minD_ne_nan
  · rw [hs.1]
    exact evaluate_ne_nan_p lg piq pf hpf s.pop
  · exact good_fit_ne_nil_p lg piq N pf hN s hs

/-- Elitism: the first member of the next population is the unmodified
best individual of the current one. -/
theorem step_elite_p (lg : ℚ → ℚ) (piq : ℚ) (N : ℕ) (pc pm pf : ℚ) (s : St) :
    (step lg piq N pc pm pf s).pop.getD 0 (0, 0) =
      s.pop.getD (argminIdx s.fit) (0, 0) := by
  rw [step_pop_p]
  obtain ⟨tl, htl⟩ := breedAux_prefix_p N pc pm s.pop s.fit N
    [s.pop.getD (argminIdx s.fit) (0, 0)] s.rs
  rw [htl]
  simp

theorem step_min_le_p (lg : ℚ → ℚ) (piq : ℚ) (N : ℕ) (pc pm pf : ℚ)
    (hpf : 0 < pf) (hN : 1 ≤ N) (s : St) (hs : GoodSt lg piq N pf s) :
    FVal.fle (minD (step lg piq N pc pm pf s).fit) (minD s.fit) = true := by
  obtain ⟨hfit, hlen⟩ := hs
  have hlen2 : (step lg piq N pc pm pf s).pop.length = N :=
    (step_good_p lg piq N pc pm pf hN s ⟨hfit, hlen⟩).2
  have hpos : 0 < (step lg piq N pc pm pf s).pop.length := by omega
  have hne : s.fit ≠ [] := good_fit_ne_nil_p lg piq N pf hN s ⟨hfit, hlen⟩
  have hfl : s.fit.length = s.pop.length := by
    rw [hfit, evaluate_len_p]
  have key : minD s.fit = fitness lg piq pf
      (s.pop.getD (argminIdx s.fit) (0, 0)) := by
    unfold minD
    set bi := argminIdx s.fit with hbid
    have hbi2 : bi < s.pop.length := by
      have := argminIdx_lt s.fit hne
      omega
    rw [hfit]
    unfold evaluate
    exact getD_map_eq _ _ _ hbi2 _ (0, 0)
  have h0 : (step lg piq N pc pm pf s).fit.getD 0 FVal.nan = minD s.fit := by
    rw [step_fit_p]
    unfold evaluate
    rw [getD_map_eq _ _ 0 hpos _ (0, 0), step_elite_p, key]
  have hnn : ∀ w ∈ (step lg piq N pc pm pf s).fit, w ≠ FVal.nan := by
    rw [step_fit_p]
    exact evaluate_ne_nan_p lg piq pf hpf _
  have hmem : (step lg piq N pc pm pf s).fit.getD 0 FVal.nan ∈
      (step lg piq N pc pm pf s).fit :=
    getD_mem _ 0 (by rw [step_fit_p, evaluate_len_p]; omega) _
  have := minD_le_mem (step lg piq N pc pm pf s).fit hnn _ hmem
  rwa [h0] at this

theorem loop_succ_right_p (lg : ℚ → ℚ) (piq : ℚ) (N : ℕ) (pc pm pf : ℚ) :
    ∀ (n : ℕ) (s : St),
      loop lg piq N pc pm pf (n + 1) s =
        step lg piq N pc pm pf (loop lg piq N pc pm pf n s) := by
  intro n
  induction n with
  | zero => intro s; rfl
  | succ m ih =>
    intro s
    show loop lg piq N pc pm pf (m + 1) (step lg piq N pc pm pf s) = _
    rw [ih (step lg piq N pc pm pf s)]
    rfl

theorem loop_good_p (lg : ℚ → ℚ) (piq : ℚ) (N : ℕ) (pc pm pf : ℚ)
    (hN : 1 ≤ N) :
    ∀ (n : ℕ) (s : St), GoodSt lg piq N pf s →
      GoodSt lg piq N pf (loop lg piq N pc pm pf n s) := by
  intro n
  induction n with
  | zero => intro s hs; exact hs
  | succ m ih =>
    intro s hs
    rw [loop_succ_right_p]
    exact step_good_p lg piq N pc pm pf hN _ (ih s hs)

theorem loop_min_le_p (lg : ℚ → ℚ) (piq : ℚ) (N : ℕ) (pc pm pf : ℚ)
    (hpf : 0 < pf) (hN : 1 ≤ N) :
    ∀ (m n : ℕ) (s : St), GoodSt lg piq N pf s → m ≤ n →
      FVal.fle (minD (loop lg piq N pc pm pf n s).fit)
        (minD (loop lg piq N pc pm pf m s).fit) = true := by
  intro m n
  induction n with
  | zero =>
    intro s hs hmn
    have : m = 0 := by omega
    subst this
    exact FVal.fle_refl _ (good_minD_ne_nan_p lg piq N pf hpf hN _ hs)
  | succ p ih =>
    intro s hs hmn
    rcases Nat.lt_or_ge m (p + 1) with h | h
    · have h1 := ih s hs (by omega)
      have h2 : FVal.fle (minD (loop lg piq N pc pm pf (p + 1) s).fit)
          (minD (loop lg piq N pc pm pf p s).fit) = true := by
        rw [loop_succ_right_p]
        exact step_min_le_p lg piq N pc pm pf hpf hN _
          (loop_good_p lg piq N pc pm pf hN p s hs)
      exact FVal.fle_trans h2 h1
    · have : m = p + 1 := by omega
      subst this
      exact FVal.fle_refl _ (good_minD_ne_nan_p lg piq N pf hpf hN _
        (loop_good_p lg piq N pc pm pf hN _ s hs))

theorem loop_best_hist_p (lg : ℚ → ℚ) (piq : ℚ) (N : ℕ) (pc pm pf : ℚ) :
    ∀ (n : ℕ) (s : St),
      (loop lg piq N pc pm pf n s).best_fit_hist =
        s.best_fit_hist ++
          (List.range n).map
            (fun g => minD ((loop lg piq N pc pm pf g s).fit)) := by
  intro n
  induction n with
  | zero => intro s; simp [loop]
  | succ m ih =>
    intro s
    rw [loop_succ_right_p, step_best_hist_p, ih s, List.range_succ]
    simp

theorem init_good_p (lg : ℚ → ℚ) (piq : ℚ) (N : ℕ) (pf : ℚ)
    (ambient : RState) : GoodSt lg piq N pf (initSt lg piq N pf ambient) := by
  refine ⟨rfl, ?_⟩
  unfold initSt init_population
  simp [uniformVec_len]

end Placa

theorem getD_map_range {β : Type} (f : ℕ → β) (n g : ℕ) (h : g < n) (d : β) :
    ((List.range n).map f).getD g d = f g := by
  rw [getD_map_eq f _ g (by simpa using h) d 0]
  congr 1
  rw [List.getD_eq_getElem _ _ (by simpa using h)]
  simp

/-- Monotone-history bundle for `cilindro_ga.run_GA`: history entries are
non-increasing, the elite heads every next population, and the returned
best fitness is the best over the whole run. -/
theorem cilindro_monotone (sf : ℕ → RSrc) (lg : ℚ → ℚ) (piq : ℚ)
    (cfg : Cilindro.Config) (hpf : 0 < cfg.penalty_factor)
    (hN : 1 ≤ cfg.pop_size) (a : RState) :
    (∀ g, g + 1 < (Cilindro.run_GA sf lg piq cfg a).best_hist.length →
      FVal.fle
        ((Cilindro.run_GA sf lg piq cfg a).best_hist.getD (g + 1) FVal.nan)
        ((Cilindro.run_GA sf lg piq cfg a).best_hist.getD g FVal.nan) = true) ∧
    (∀ g, (Cilindro.popAt sf lg piq cfg (g + 1)).getD 0 (0, 0) =
      (Cilindro.popAt sf lg piq cfg g).getD
        (argminIdx (Cilindro.evaluate lg piq cfg.penalty_factor
          (Cilindro.popAt sf lg piq cfg g))) (0, 0)) ∧
    (∀ g, g ≤ cfg.generations →
      ∀ ind ∈ Cilindro.popAt sf lg piq cfg g,
        FVal.fle (Cilindro.run_GA sf lg piq cfg a).best_fitness
          (Cilindro.objective lg piq cfg.penalty_factor ind) = true) ∧
    (∀ g, g < (Cilindro.run_GA sf lg piq cfg a).best_hist.length →
      FVal.fle (Cilindro.run_GA sf lg piq cfg a).best_fitness
        ((Cilindro.run_GA sf lg piq cfg a).best_hist.getD g FVal.nan) = true) := by
  have hinit := Cilindro.init_good sf lg piq cfg
  have hbh : (Cilindro.run_GA sf lg piq cfg a).best_hist =
      (List.range cfg.generations).map
        (fun g => minD ((Cilindro.loop lg piq cfg g
          (Cilindro.initSt sf lg piq cfg)).fit)) := by
    show (Cilindro.loop lg piq cfg cfg.generations
      (Cilindro.initSt sf lg piq cfg)).best_hist = _
    rw [Cilindro.loop_best_hist]
    rfl
  have hbf : (Cilindro.run_GA sf lg piq cfg a).best_fitness =
      minD ((Cilindro.loop lg piq cfg cfg.generations
        (Cilindro.initSt sf lg piq cfg)).fit) := rfl
  refine ⟨?_, ?_, ?_, ?_⟩
  · intro g hg
    rw [hbh] at hg ⊢
    simp only [List.length_map, List.length_range] at hg
    rw [getD_map_range _ _ _ (by omega), getD_map_range _ _ _ (by omega)]
    exact Cilindro.loop_min_le lg piq cfg hpf hN g (g + 1) _ hinit (by omega)
  · intro g
    unfold Cilindro.popAt
    rw [Cilindro.loop_succ_right, Cilindro.step_elite,
      (Cilindro.loop_good lg piq cfg hN g _ hinit).1]
  · intro g hg ind hind
    rw [hbf]
    have hfg := (Cilindro.loop_good lg piq cfg hN g _ hinit).1
    have hmem : Cilindro.objective lg piq cfg.penalty_factor ind ∈
        (Cilindro.loop lg piq cfg g (Cilindro.initSt sf lg piq cfg)).fit := by
      rw [hfg]
      exact List.mem_map_of_mem _ hind
    have h2 := minD_le_mem _ (by
        rw [hfg]
        exact Cilindro.evaluate_ne_nan lg piq cfg.penalty_factor hpf _) _ hmem
    exact FVal.fle_trans
      (Cilindro.loop_min_le lg piq cfg hpf hN g cfg.generations _ hinit hg) h2
  · intro g hg
    rw [hbh] at hg ⊢
    simp only [List.length_map, List.length_range] at hg
    rw [getD_map_range _ _ _ (by omega), hbf]
    exact Cilindro.loop_min_le lg piq cfg hpf hN g cfg.generations _ hinit
      (by omega)

/-- Monotone-history bundle for `placa_plana_ga.run_GA`. -/
theorem placa_monotone (lg : ℚ → ℚ) (piq : ℚ) (N G : ℕ) (pc pm pf : ℚ)
    (hpf : 0 < pf) (hN : 1 ≤ N) (a : RState) :
    (∀ g, g + 1 < (Placa.run_GA lg piq N G pc pm pf a).best_fit.length →
      FVal.fle
        ((Placa.run_GA lg piq N G pc pm pf a).best_fit.getD (g + 1) FVal.nan)
        ((Placa.run_GA lg piq N G pc pm pf a).best_fit.getD g FVal.nan)
          = true) ∧
    (∀ g, (Placa.popAt lg piq N pc pm pf a (g + 1)).getD 0 (0, 0) =
      (Placa.popAt lg piq N pc pm pf a g).getD
        (argminIdx (Placa.evaluate lg piq pf
          (Placa.popAt lg piq N pc pm pf a g))) (0, 0)) ∧
    (∀ g, g ≤ G → ∀ ind ∈ Placa.popAt lg piq N pc pm pf a g,
      FVal.fle (minD ((Placa.loop lg piq N pc pm pf G
          (Placa.initSt lg piq N pf a)).fit))
        (Placa.fitness lg piq pf ind) = true) := by
  have hinit := Placa.init_good_p lg piq N pf a
  refine ⟨?_, ?_, ?_⟩
  · intro g hg
    have hbh : (Placa.run_GA lg piq N G pc pm pf a).best_fit =
        (List.range G).map
          (fun g => minD ((Placa.loop lg piq N pc pm pf g
            (Placa.initSt lg piq N pf a)).fit)) := by
      show (Placa.loop lg piq N pc pm pf G
        (Placa.initSt lg piq N pf a)).best_fit_hist = _
      rw [Placa.loop_best_hist_p]
      rfl
    rw [hbh] at hg ⊢
    simp only [List.length_map, List.length_range] at hg
    rw [getD_map_range _ _ _ (by omega), getD_map_range _ _ _ (by omega)]
    exact Placa.loop_min_le_p lg piq N pc pm pf hpf hN g (g + 1) _ hinit (by omega)
  · intro g
    unfold Placa.popAt
    rw [Placa.loop_succ_right_p, Placa.step_elite_p,
      (Placa.loop_good_p lg piq N pc pm pf hN g _ hinit).1]
  · intro g hg ind hind
    have hfg := (Placa.loop_good_p lg piq N pc pm pf hN g _ hinit).1
    have hmem : Placa.fitness lg piq pf ind ∈
        (Placa.loop lg piq N pc pm pf g (Placa.initSt lg piq N pf a)).fit := by
      rw [hfg]
      exact List.mem_map_of_mem _ hind
    have h2 := minD_le_mem _ (by
        rw [hfg]
        exact Placa.evaluate_ne_nan_p lg piq pf hpf _) _ hmem
    exact FVal.fle_trans
      (Placa.loop_min_le_p lg piq N pc pm pf hpf hN g G _ hinit hg) h2

namespace Cilindro

/-- The recorded generation best is the objective value of the elite. -/
theorem good_minD_eq (lg : ℚ → ℚ) (piq : ℚ) (cfg : Config)
    (hN : 1 ≤ cfg.pop_size) (s : St) (hs : GoodSt lg piq cfg s) :
    minD s.fit = objective lg piq cfg.penalty_factor
      (s.pop.getD (argminIdx s.fit) (0, 0)) := by
  obtain ⟨hfit, hlen⟩ := hs
  have hne : s.fit ≠ [] := good_fit_ne_nil lg piq cfg hN s ⟨hfit, hlen⟩
  have hfl : s.fit.length = s.pop.length := by rw [hfit, evaluate_len]
  unfold minD
  set bi := argminIdx s.fit with hbid
  have hbi2 : bi < s.pop.length := by
    have := argminIdx_lt s.fit hne
    omega
  rw [hfit]
  unfold evaluate
  exact getD_map_eq _ _ _ hbi2 _ (0, 0)

/-- The fitness `run_GA` returns is the objective of the individual it
returns (and it is the argmin of the final evaluated population). -/
theorem run_returned_fitness (sf : ℕ → RSrc) (lg : ℚ → ℚ) (piq : ℚ)
    (cfg : Config) (hN : 1 ≤ cfg.pop_size) (a : RState) :
    (run_GA sf lg piq cfg a).best_fitness =
      objective lg piq cfg.penalty_factor
        (run_GA sf lg piq cfg a).best_individual := by
  have hg := loop_good lg piq cfg hN cfg.generations _ (init_good sf lg piq cfg)
  exact good_minD_eq lg piq cfg hN _ hg

end Cilindro

namespace Placa

/-- The recorded generation best is the fitness value of the elite. -/
theorem good_minD_eq_p (lg : ℚ → ℚ) (piq : ℚ) (N : ℕ) (pf : ℚ)
    (hN : 1 ≤ N) (s : St) (hs : GoodSt lg piq N pf s) :
    minD s.fit = fitness lg piq pf
      (s.pop.getD (argminIdx s.fit) (0, 0)) := by
  obtain ⟨hfit, hlen⟩ := hs
  have hne : s.fit ≠ [] := good_fit_ne_nil_p lg piq N pf hN s ⟨hfit, hlen⟩
  have hfl : s.fit.length = s.pop.length := by rw [hfit, evaluate_len_p]
  unfold minD
  set bi := argminIdx s.fit with hbid
  have hbi2 : bi < s.pop.length := by
    have := argminIdx_lt s.fit hne
    omega
  rw [hfit]
  unfold evaluate
  exact getD_map_eq _ _ _ hbi2 _ (0, 0)

/-- The pair `(t_best, k_best)` that `run_GA` returns has, as its fitness,
the argmin of the final evaluated population. -/
theorem run_returned_fitness_p (lg : ℚ → ℚ) (piq : ℚ) (N G : ℕ)
    (pc pm pf : ℚ) (hN : 1 ≤ N) (a : RState) :
    fitness lg piq pf ((run_GA lg piq N G pc pm pf a).t_best,
        (run_GA lg piq N G pc pm pf a).k_best) =
      minD ((loop lg piq N pc pm pf G (initSt lg piq N pf a)).fit) := by
  have hg := loop_good_p lg piq N pc pm pf hN G _ (init_good_p lg piq N pf a)
  have := good_minD_eq_p lg piq N pf hN _ hg
  rw [this]
  rfl

end Placa

/-- A concrete logarithm stand-in with the properties of the real `log`
this development relies on: zero at `1`, positive above `1`, strictly
monotone. -/
def lgLin : ℚ → ℚ := fun x => x - 1

/-- Stream source whose uniform draws are all `0` (valid: in `[0,1)`),
normal draws `0`, integer draws `0`. -/
def zeroSrc : RSrc := ⟨fun _ => 0, fun _ => 0, fun _ => 0⟩

/-- Stream source whose uniform draws are all `1/2`, normal draws `-1`,
integer draws `0`. -/
def halfSrc : RSrc := ⟨fun _ => 1/2, fun _ => -1, fun _ => 0⟩

/-- Generator state at position zero over `zeroSrc`. -/
def zeroState : RState := ⟨zeroSrc, 0, 0, 0⟩

/-- Generator state at position zero over `halfSrc`. -/
def halfState : RState := ⟨halfSrc, 0, 0, 0⟩

/-- A small concrete `cilindro` configuration: the source's bounds and
rates with a population of 2 and 2 generations. -/
def cilSmallCfg : Cilindro.Config :=
  ⟨(1/50, 21/250), (1/200, 2/25), 2, 2, 4/5, 3/10, 3/10, 10000, 42⟩

/-- C1: for every run of either GA (any configuration with the documented
positive penalty factor and a nonempty population, any seed and any
ambient generator state), the best-fitness sequence recorded in the
history is non-increasing across consecutive generations; exactly one
unmodified copy of the current best individual is carried into (and heads)
the next population; and the best individual and fitness `run_GA` returns
are the best found over the whole run: the returned fitness is the fitness
of the returned individual, is below every recorded history entry, and is
below the fitness of every individual of every generation's population. -/
theorem claim_C1 :
    (∀ (sf : ℕ → RSrc) (lg : ℚ → ℚ) (piq : ℚ) (cfg : Cilindro.Config),
      0 < cfg.penalty_factor → 1 ≤ cfg.pop_size → ∀ (a : RState),
      (∀ g, g + 1 < (Cilindro.run_GA sf lg piq cfg a).best_hist.length →
        FVal.fle
          ((Cilindro.run_GA sf lg piq cfg a).best_hist.getD (g + 1) FVal.nan)
          ((Cilindro.run_GA sf lg piq cfg a).best_hist.getD g FVal.nan)
            = true) ∧
      (∀ g, (Cilindro.popAt sf lg piq cfg (g + 1)).getD 0 (0, 0) =
        (Cilindro.popAt sf lg piq cfg g).getD
          (argminIdx (Cilindro.evaluate lg piq cfg.penalty_factor
            (Cilindro.popAt sf lg piq cfg g))) (0, 0)) ∧
      (∀ g, g ≤ cfg.generations →
        ∀ ind ∈ Cilindro.popAt sf lg piq cfg g,
          FVal.fle (Cilindro.run_GA sf lg piq cfg a).best_fitness
            (Cilindro.objective lg piq cfg.penalty_factor ind) = true) ∧
      (∀ g, g < (Cilindro.run_GA sf lg piq cfg a).best_hist.length →
        FVal.fle (Cilindro.run_GA sf lg piq cfg a).best_fitness
          ((Cilindro.run_GA sf lg piq cfg a).best_hist.getD g FVal.nan)
            = true) ∧
      (Cilindro.run_GA sf lg piq cfg a).best_fitness =
        Cilindro.objective lg piq cfg.penalty_factor
          (Cilindro.run_GA sf lg piq cfg a).best_individual) ∧
    (∀ (lg : ℚ → ℚ) (piq : ℚ) (N G : ℕ) (pc pm pf : ℚ),
      0 < pf → 1 ≤ N → ∀ (a : RState),
      (∀ g, g + 1 < (Placa.run_GA lg piq N G pc pm pf a).best_fit.length →
        FVal.fle
          ((Placa.run_GA lg piq N G pc pm pf a).best_fit.getD (g + 1) FVal.nan)
          ((Placa.run_GA lg piq N G pc pm pf a).best_fit.getD g FVal.nan)
            = true) ∧
      (∀ g, (Placa.popAt lg piq N pc pm pf a (g + 1)).getD 0 (0, 0) =
        (Placa.popAt lg piq N pc pm pf a g).getD
          (argminIdx (Placa.evaluate lg piq pf
            (Placa.popAt lg piq N pc pm pf a g))) (0, 0)) ∧
      (∀ g, g ≤ G → ∀ ind ∈ Placa.popAt lg piq N pc pm pf a g,
        FVal.fle
          (Placa.fitness lg piq pf
            ((Placa.run_GA lg piq N G pc pm pf a).t_best,
              (Placa.run_GA lg piq N G pc pm pf a).k_best))
          (Placa.fitness lg piq pf ind) = true)) := by
  constructor
  · intro sf lg piq cfg hpf hN a
    obtain ⟨h1, h2, h3, h4⟩ := cilindro_monotone sf lg piq cfg hpf hN a
    exact ⟨h1, h2, h3, h4, Cilindro.run_returned_fitness sf lg piq cfg hN a⟩
  · intro lg piq N G pc pm pf hpf hN a
    obtain ⟨h1, h2, h3⟩ := placa_monotone lg piq N G pc pm pf hpf hN a
    refine ⟨h1, h2, ?_⟩
    intro g hg ind hind
    rw [Placa.run_returned_fitness_p lg piq N G pc pm pf hN a]
    exact h3 g hg ind hind

/-- Witness for C1: the concrete monotonicity of the first two recorded
best-fitness entries on small runs of both GAs. -/
theorem claim_C1_witness :
    (FVal.fle
      ((Cilindro.run_GA (fun _ => halfSrc) lgLin 3 cilSmallCfg
        zeroState).best_hist.getD (0 + 1) FVal.nan)
      ((Cilindro.run_GA (fun _ => halfSrc) lgLin 3 cilSmallCfg
        zeroState).best_hist.getD 0 FVal.nan) = true) ∧
    (FVal.fle
      ((Placa.run_GA lgLin 3 2 2 (9/10) (1/10) 1000000
        halfState).best_fit.getD (0 + 1) FVal.nan)
      ((Placa.run_GA lgLin 3 2 2 (9/10) (1/10) 1000000
        halfState).best_fit.getD 0 FVal.nan) = true) :=
  ⟨(claim_C1.1 (fun _ => halfSrc) lgLin 3 cilSmallCfg (by norm_num [cilSmallCfg])
      (by norm_num [cilSmallCfg]) zeroState).1 0 (by decide),
   (claim_C1.2 lgLin 3 2 2 (9/10) (1/10) 1000000 (by norm_num)
      (by norm_num) halfState).1 0 (by decide)⟩

namespace Cilindro

theorem breedAux_src (cfg : Config) (pop : List (ℚ × ℚ)) (fit : List FVal) :
    ∀ (fuel : ℕ) (acc : List (ℚ × ℚ)) (s : RState),
      (breedAux cfg pop fit fuel acc s).2.src = s.src := by
  intro fuel
  induction fuel with
  | zero => intro acc s; rfl
  | succ m ih =>
    intro acc s
    simp only [breedAux]
    split
    · split
      · rw [mutateChild_src, breedPair_src]
      · rw [ih, mutateChild_src, mutateChild_src, breedPair_src]
    · rfl

theorem step_rs_src (lg : ℚ → ℚ) (piq : ℚ) (cfg : Config) (s : St) :
    (step lg piq cfg s).rs.src = s.rs.src := by
  show (breedAux cfg s.pop s.fit cfg.pop_size _ s.rs).2.src = s.rs.src
  rw [breedAux_src]

theorem loop_rs_src (lg : ℚ → ℚ) (piq : ℚ) (cfg : Config) :
    ∀ (n : ℕ) (s : St), (loop lg piq cfg n s).rs.src = s.rs.src := by
  intro n
  induction n with
  | zero => intro s; rfl
  | succ m ih =>
    intro s
    rw [loop_succ_right, step_rs_src, ih]

theorem init_rs_src (sf : ℕ → RSrc) (lg : ℚ → ℚ) (piq : ℚ) (cfg : Config) :
    (initSt sf lg piq cfg).rs.src = sf cfg.seed := by
  show (uniformVec cfg.bt.1 cfg.bt.2 cfg.pop_size _).2.src = sf cfg.seed
  rw [uniformVec_src, uniformVec_src]

theorem init_box (sf : ℕ → RSrc) (lg : ℚ → ℚ) (piq : ℚ) (cfg : Config)
    (hbk : cfg.bk.1 ≤ cfg.bk.2) (hbt : cfg.bt.1 ≤ cfg.bt.2)
    (hv : ValidSrc (sf cfg.seed)) :
    ∀ ind ∈ (initSt sf lg piq cfg).pop, InBox cfg.bk cfg.bt ind := by
  intro ind hind
  obtain ⟨i1, i2⟩ := ind
  unfold initSt at hind
  dsimp only at hind
  obtain ⟨h1, h2⟩ := List.of_mem_zip hind
  refine ⟨?_, ?_⟩
  · exact uniformVec_mem cfg.bk.1 cfg.bk.2 hbk cfg.pop_size _ hv i1 h1
  · refine uniformVec_mem cfg.bt.1 cfg.bt.2 hbt cfg.pop_size _ ?_ i2 h2
    rw [uniformVec_src]
    exact hv

end Cilindro

/-- Boundedness for `cilindro_ga`: every individual of every generation's
population lies in the configured box. -/
theorem cilindro_popAt_box (sf : ℕ → RSrc) (lg : ℚ → ℚ) (piq : ℚ)
    (cfg : Cilindro.Config) (hbk : cfg.bk.1 ≤ cfg.bk.2)
    (hbt : cfg.bt.1 ≤ cfg.bt.2) (hN : 1 ≤ cfg.pop_size)
    (hv : ValidSrc (sf cfg.seed)) :
    ∀ g, ∀ ind ∈ Cilindro.popAt sf lg piq cfg g,
      InBox cfg.bk cfg.bt ind := by
  intro g
  induction g with
  | zero => exact Cilindro.init_box sf lg piq cfg hbk hbt hv
  | succ m ih =>
    unfold Cilindro.popAt at ih ⊢
    rw [Cilindro.loop_succ_right, Cilindro.step_pop]
    have hgood := Cilindro.loop_good lg piq cfg hN m _
      (Cilindro.init_good sf lg piq cfg)
    have hlen : (Cilindro.loop lg piq cfg m
        (Cilindro.initSt sf lg piq cfg)).pop.length = cfg.pop_size := hgood.2
    have helite : (Cilindro.loop lg piq cfg m
        (Cilindro.initSt sf lg piq cfg)).pop.getD
          (argminIdx (Cilindro.loop lg piq cfg m
            (Cilindro.initSt sf lg piq cfg)).fit) (0, 0) ∈
        (Cilindro.loop lg piq cfg m (Cilindro.initSt sf lg piq cfg)).pop := by
      apply getD_mem
      have hfl := Cilindro.good_fit_len lg piq cfg _ hgood
      have := argminIdx_lt (Cilindro.loop lg piq cfg m
        (Cilindro.initSt sf lg piq cfg)).fit
        (Cilindro.good_fit_ne_nil lg piq cfg hN _ hgood)
      omega
    apply Cilindro.breedAux_box cfg _ _ hbk hbt (by omega) hlen ih
    · rw [Cilindro.loop_rs_src, Cilindro.init_rs_src]
      exact hv
    · intro x hx
      rcases List.mem_singleton.mp hx with rfl
      exact ih _ helite

namespace Placa

theorem init_box_p (lg : ℚ → ℚ) (piq : ℚ) (N : ℕ) (pf : ℚ) (a : RState)
    (hv : ValidSrc a.src) :
    ∀ ind ∈ (initSt lg piq N pf a).pop, InBox boxT boxK ind := by
  intro ind hind
  obtain ⟨i1, i2⟩ := ind
  unfold initSt init_population at hind
  dsimp only at hind
  obtain ⟨h1, h2⟩ := List.of_mem_zip hind
  refine ⟨?_, ?_⟩
  · exact uniformVec_mem t_min t_max (by norm_num [t_min, t_max]) N _ hv i1 h1
  · refine uniformVec_mem k_min k_max (by norm_num [k_min, k_max]) N _ ?_ i2 h2
    rw [uniformVec_src]
    exact hv

end Placa

/-- Boundedness for `placa_plana_ga`: every individual of every
generation's population lies in the search box. -/
theorem placa_popAt_box (lg : ℚ → ℚ) (piq : ℚ) (N : ℕ) (pc pm pf : ℚ)
    (a : RState) (hN : 1 ≤ N) (hv : ValidSrc a.src) :
    ∀ g, ∀ ind ∈ Placa.popAt lg piq N pc pm pf a g,
      InBox Placa.boxT Placa.boxK ind := by
  intro g
  induction g with
  | zero => exact Placa.init_box_p lg piq N pf a hv
  | succ m ih =>
    unfold Placa.popAt at ih ⊢
    rw [Placa.loop_succ_right_p, Placa.step_pop_p]
    have hgood := Placa.loop_good_p lg piq N pc pm pf hN m _
      (Placa.init_good_p lg piq N pf a)
    have helite : (Placa.loop lg piq N pc pm pf m
        (Placa.initSt lg piq N pf a)).pop.getD
          (argminIdx (Placa.loop lg piq N pc pm pf m
            (Placa.initSt lg piq N pf a)).fit) (0, 0) ∈
        (Placa.loop lg piq N pc pm pf m (Placa.initSt lg piq N pf a)).pop := by
      apply getD_mem
      have hfl := Placa.good_fit_len_p lg piq N pf _ hgood
      have hlen := hgood.2
      have := argminIdx_lt (Placa.loop lg piq N pc pm pf m
        (Placa.initSt lg piq N pf a)).fit
        (Placa.good_fit_ne_nil_p lg piq N pf hN _ hgood)
      omega
    apply Placa.breedAux_box_p
    intro x hx
    rcases List.mem_singleton.mp hx with rfl
    exact ih _ helite

namespace Placa

theorem crossover_box (p1 p2 : ℚ × ℚ) (pc : ℚ) (s : RState)
    (hv : ValidSrc s.src) (h1 : InBox boxT boxK p1)
    (h2 : InBox boxT boxK p2) :
    InBox boxT boxK (crossover p1 p2 pc s).1.1 ∧
      InBox boxT boxK (crossover p1 p2 pc s).1.2 := by
  unfold crossover
  dsimp only
  split
  · have h0 : (0 : ℚ) ≤ (randU (randU s).2).1 := by
      simpa [randU] using (hv _).1
    have hlt : (randU (randU s).2).1 < 1 := by
      simpa [randU] using (hv _).2
    constructor
    · exact ⟨convex_mem _ _ _ _ _ h0 (le_of_lt hlt) h1.1 h2.1,
        convex_mem _ _ _ _ _ h0 (le_of_lt hlt) h1.2 h2.2⟩
    · exact ⟨convex_mem _ _ _ _ _ h0 (le_of_lt hlt) h2.1 h1.1,
        convex_mem _ _ _ _ _ h0 (le_of_lt hlt) h2.2 h1.2⟩
  · exact ⟨h1, h2⟩

end Placa

/-- C2: in both GAs, assuming ordered bounds and a real uniform generator
(draws in `[0,1)`), every gene of every individual lies in its declared
closed interval after initialization (generation 0 of `popAt`), after
every generational replacement (crossover followed by mutation), and the
individual operators preserve the box: crossover children of in-box
parents are convex blends and stay in the box, and mutation clips every
perturbed gene back into its interval. -/
theorem claim_C2 :
    (∀ (sf : ℕ → RSrc) (lg : ℚ → ℚ) (piq : ℚ) (cfg : Cilindro.Config),
      cfg.bk.1 ≤ cfg.bk.2 → cfg.bt.1 ≤ cfg.bt.2 → 1 ≤ cfg.pop_size →
      ValidSrc (sf cfg.seed) →
      ∀ g, ∀ ind ∈ Cilindro.popAt sf lg piq cfg g,
        InBox cfg.bk cfg.bt ind) ∧
    (∀ (a : ℚ) (p q b1 b2 : ℚ × ℚ), 0 ≤ a → a ≤ 1 →
      InBox b1 b2 p → InBox b1 b2 q → InBox b1 b2 (Cilindro.blend a p q)) ∧
    (∀ (cfg : Cilindro.Config) (c : ℚ × ℚ) (s : RState),
      cfg.bk.1 ≤ cfg.bk.2 → cfg.bt.1 ≤ cfg.bt.2 →
      InBox cfg.bk cfg.bt c →
      InBox cfg.bk cfg.bt (Cilindro.mutateChild cfg c s).1) ∧
    (∀ (lg : ℚ → ℚ) (piq : ℚ) (N : ℕ) (pc pm pf : ℚ) (a : RState),
      1 ≤ N → ValidSrc a.src →
      ∀ g, ∀ ind ∈ Placa.popAt lg piq N pc pm pf a g,
        InBox Placa.boxT Placa.boxK ind) ∧
    (∀ (p1 p2 : ℚ × ℚ) (pc : ℚ) (s : RState), ValidSrc s.src →
      InBox Placa.boxT Placa.boxK p1 → InBox Placa.boxT Placa.boxK p2 →
      InBox Placa.boxT Placa.boxK (Placa.crossover p1 p2 pc s).1.1 ∧
        InBox Placa.boxT Placa.boxK (Placa.crossover p1 p2 pc s).1.2) ∧
    (∀ (ind : ℚ × ℚ) (pm st sk : ℚ) (s : RState),
      InBox Placa.boxT Placa.boxK (Placa.mutate ind pm st sk s).1) := by
  refine ⟨?_, ?_, ?_, ?_, ?_, ?_⟩
  · intro sf lg piq cfg hbk hbt hN hv
    exact cilindro_popAt_box sf lg piq cfg hbk hbt hN hv
  · intro a p q b1 b2 h0 h1 hp hq
    exact Cilindro.blend_mem a p q b1 b2 h0 h1 hp hq
  · intro cfg c s hbk hbt hc
    exact Cilindro.mutateChild_mem cfg c s hbk hbt hc
  · intro lg piq N pc pm pf a hN hv
    exact placa_popAt_box lg piq N pc pm pf a hN hv
  · intro p1 p2 pc s hv h1 h2
    exact Placa.crossover_box p1 p2 pc s hv h1 h2
  · intro ind pm st sk s
    exact Placa.mutate_box ind pm st sk s

/-- Witness for C2: concrete in-box membership of individuals of
generation 1 on small runs of both GAs. -/
theorem claim_C2_witness :
    InBox cilSmallCfg.bk cilSmallCfg.bt
      ((Cilindro.popAt (fun _ => halfSrc) lgLin 3 cilSmallCfg 1).getD 0
        (0, 0)) ∧
    InBox Placa.boxT Placa.boxK
      ((Placa.popAt lgLin 3 2 (9/10) (1/10) 1000000 halfState 1).getD 0
        (0, 0)) :=
  ⟨claim_C2.1 (fun _ => halfSrc) lgLin 3 cilSmallCfg
      (by norm_num [cilSmallCfg]) (by norm_num [cilSmallCfg])
      (by norm_num [cilSmallCfg])
      (fun n => ⟨by norm_num [halfSrc], by norm_num [halfSrc]⟩) 1 _
      (getD_mem _ 0 (by decide) _),
   claim_C2.2.2.2.1 lgLin 3 2 (9/10) (1/10) 1000000 halfState
      (by norm_num)
      (fun n => ⟨by norm_num [halfState, halfSrc],
        by norm_num [halfState, halfSrc]⟩) 1 _
      (getD_mem _ 0 (by decide) _)⟩

namespace Placa

/-- With any logarithm that is positive above 1, the `placa` heat flow of
an individual whose genes respect the lower bounds is a finite value. -/
theorem heat_flow_fin (lg : ℚ → ℚ) (piq k t : ℚ)
    (hlog : ∀ x, 1 < x → 0 < lg x) (ht : t_min ≤ t) (hk : k_min ≤ k) :
    ∃ q, heat_flow lg piq k t = FVal.fin q := by
  unfold heat_flow
  dsimp only
  have htq : (1 : ℚ)/40 ≤ t := by norm_num [t_min] at ht; exact ht
  have hkq : (1 : ℚ)/20 ≤ k := by norm_num [k_min] at hk; exact hk
  have hr1 : 1 < (r_i + t) / r_i := by
    rw [lt_div_iff (by norm_num [r_i])]
    norm_num [r_i]
    linarith
  have hflog : flog lg ((r_i + t) / r_i) =
      FVal.fin (lg ((r_i + t) / r_i)) := by
    unfold flog
    rw [if_neg (not_lt.mpr (by linarith)), if_neg (by
      intro hc
      rw [hc] at hr1
      norm_num at hr1)]
  rw [hflog]
  have hlg : 0 < lg ((r_i + t) / r_i) := hlog _ hr1
  have hkpos : 0 < k := by linarith
  have hhro : 0 < h * (r_i + t) := by
    norm_num [h, r_i]
    linarith
  simp only [FVal.fdiv]
  rw [if_neg (by intro hc; rw [hc] at hkpos; norm_num at hkpos),
    if_neg (ne_of_gt hhro)]
  have hspos : 0 < lg ((r_i + t) / r_i) / k + 1 / (h * (r_i + t)) := by
    positivity
  simp only [FVal.fadd, FVal.fdiv]
  rw [if_neg (ne_of_gt hspos)]
  exact ⟨_, rfl⟩

/-- With any logarithm that is positive above 1, `placa`'s fitness is a
finite value for every gene pair: out-of-box genes hit the 1e9 sentinel,
in-box genes give a finite heat flow and a finite penalty. -/
theorem fitness_total (lg : ℚ → ℚ) (piq pf t k : ℚ)
    (hlog : ∀ x, 1 < x → 0 < lg x) :
    ∃ q, fitness lg piq pf (t, k) = FVal.fin q := by
  unfold fitness
  dsimp only
  split
  · exact ⟨1000000000, rfl⟩
  · rename_i hbox
    push_neg at hbox
    obtain ⟨⟨ht1, ht2⟩, hk1, hk2⟩ := hbox
    obtain ⟨qv, hQ⟩ := heat_flow_fin lg piq k t hlog ht1 hk1
    rw [hQ]
    split
    · simp only [FVal.fsub, FVal.fneg, FVal.fadd, FVal.fmul]
      exact ⟨_, rfl⟩
    · simp only [FVal.fadd]
      exact ⟨_, rfl⟩

end Placa

namespace Cilindro

/-- At thickness `t = 0` the radius ratio is `1` and `log` gives `0`, so
the heat-flow division blows up to `+inf`. -/
theorem heat_flow_pinf_at_zero_thickness (lg : ℚ → ℚ) (piq : ℚ)
    (h1 : lg 1 = 0) (hpi : 0 < piq) :
    heat_flow lg piq 1 0 = FVal.pinf := by
  unfold heat_flow
  dsimp only
  have hr : (r1 + 0) / r1 = 1 := by norm_num [r1]
  rw [hr]
  unfold flog
  rw [if_neg (by norm_num), if_neg (by norm_num), h1]
  have hnum : (0 : ℚ) < 2 * piq * 1 * L * dT := by
    norm_num [L, dT]
    linarith
  simp only [FVal.fdiv]
  rw [if_pos trivial, if_pos hnum]

/-- The `+inf` heat flow at `t = 0` passes the `Q > Q_max` guard and the
quadratic penalty carries the infinity into the returned fitness:
`objective` is unguarded and returns a non-finite value. -/
theorem objective_pinf_at_zero_thickness (lg : ℚ → ℚ) (piq pf : ℚ)
    (h1 : lg 1 = 0) (hpi : 0 < piq) (hpf : 0 < pf) :
    objective lg piq pf (1, 0) = FVal.pinf := by
  unfold objective
  dsimp only
  rw [heat_flow_pinf_at_zero_thickness lg piq h1 hpi]
  rw [if_pos (show FVal.flt (FVal.fin Q_max) FVal.pinf = true from rfl)]
  simp only [FVal.fsub, FVal.fneg, FVal.fadd, FVal.fmul]
  rw [if_pos hpf]
  rw [if_pos (show k_max < (1 : ℚ) by norm_num [k_max])]

end Cilindro

/-- C3 counterexample: the claim says the evaluator never yields an
infinite fitness, but `cilindro`'s `objective` at the gene vector
`(k, t) = (1, 0)` (radius ratio 1, so `log` is `0` and the heat-flow
division blows up) returns `+inf` — with a concrete log-like function
(zero at 1, increasing) standing in for `np.log`. -/
theorem claim_C3_counterexample :
    Cilindro.objective lgLin 3 10000 (1, 0) = FVal.pinf :=
  Cilindro.objective_pinf_at_zero_thickness lgLin 3 10000
    (by norm_num [lgLin]) (by norm_num) (by norm_num)

/-- C3 (amended): `placa`'s `fitness` is total — it returns a finite value
(the `1e9` sentinel outside the box, a finite base-plus-penalty inside)
for every gene pair, for every log positive above 1; `cilindro`'s
`objective` is unguarded: at `t = 0` it returns `+inf` for every log that
vanishes at 1, every positive `pi` and every positive penalty factor. -/
theorem claim_C3 :
    (∀ (lg : ℚ → ℚ) (piq pf t k : ℚ), (∀ x, 1 < x → 0 < lg x) →
      ∃ q, Placa.fitness lg piq pf (t, k) = FVal.fin q) ∧
    (∀ (lg : ℚ → ℚ) (piq pf : ℚ), lg 1 = 0 → 0 < piq → 0 < pf →
      Cilindro.objective lg piq pf (1, 0) = FVal.pinf) := by
  constructor
  · intro lg piq pf t k hlog
    exact Placa.fitness_total lg piq pf t k hlog
  · intro lg piq pf h1 hpi hpf
    exact Cilindro.objective_pinf_at_zero_thickness lg piq pf h1 hpi hpf

/-- Witness for C3 at concrete inputs: a finite `placa` fitness inside the
box and the `+inf` `cilindro` objective at `t = 0`. -/
theorem claim_C3_witness :
    (∃ q, Placa.fitness lgLin 3 1000000 (1/10, 3/50) = FVal.fin q) ∧
    Cilindro.objective lgLin 3 10000 (1, 0) = FVal.pinf :=
  ⟨claim_C3.1 lgLin 3 1000000 (1/10) (3/50)
      (fun x hx => by simp only [lgLin]; linarith),
   claim_C3.2 lgLin 3 10000 (by norm_num [lgLin]) (by norm_num)
      (by norm_num)⟩

namespace Cilindro


/-- Penalty decomposition of `objective`: with a finite heat flow the
fitness is exactly the base cost `t` plus `pf * max(0, violation)^2` for
each of the two inequality constraints, added. -/
theorem objective_decomp (lg : ℚ → ℚ) (piq pf k t qv : ℚ)
    (hQ : heat_flow lg piq k t = FVal.fin qv) :
    objective lg piq pf (k, t) =
      FVal.fin (t + pf * max 0 (qv - Q_max) ^ 2 +
        pf * max 0 (k - k_max) ^ 2) := by
  unfold objective
  dsimp only
  rw [hQ]
  simp only [FVal.flt, FVal.fsub, FVal.fneg, FVal.fadd, FVal.fmul,
    decide_eq_true_eq]
  split_ifs with h1 h2
  · congr 1
    rw [show max 0 (qv - Q_max) = qv - Q_max from max_eq_right (by linarith),
      show max 0 (k - k_max) = k - k_max from max_eq_right (by linarith)]
    ring
  · congr 1
    rw [show max 0 (qv - Q_max) = 0 from max_eq_left (by linarith),
      show max 0 (k - k_max) = k - k_max from max_eq_right (by linarith)]
    ring
  · congr 1
    rw [show max 0 (qv - Q_max) = qv - Q_max from max_eq_right (by linarith),
      show max 0 (k - k_max) = 0 from max_eq_left (by linarith)]
    ring
  · congr 1
    rw [show max 0 (qv - Q_max) = 0 from max_eq_left (by linarith),
      show max 0 (k - k_max) = 0 from max_eq_left (by linarith)]
    ring

/-- A feasible individual (both constraints satisfied) is scored exactly
by the base cost `t`: zero penalty contribution. -/
theorem objective_feasible (lg : ℚ → ℚ) (piq pf k t qv : ℚ)
    (hQ : heat_flow lg piq k t = FVal.fin qv) (hq : qv ≤ Q_max)
    (hk : k ≤ k_max) :
    objective lg piq pf (k, t) = FVal.fin t := by
  rw [objective_decomp lg piq pf k t qv hQ,
    show max 0 (qv - Q_max) = 0 from max_eq_left (by linarith),
    show max 0 (k - k_max) = 0 from max_eq_left (by linarith)]
  norm_num

/-- An infeasible individual is scored strictly above the base cost. -/
theorem objective_exceeds_base (lg : ℚ → ℚ) (piq pf k t : ℚ) (hpf : 0 < pf)
    (h : FVal.flt (FVal.fin Q_max) (heat_flow lg piq k t) = true ∨
      k_max < k) :
    FVal.flt (FVal.fin t) (objective lg piq pf (k, t)) = true := by
  cases hQ : heat_flow lg piq k t with
  | fin qv =>
    rw [hQ] at h
    rw [objective_decomp lg piq pf k t qv hQ]
    simp only [FVal.flt, decide_eq_true_eq] at h ⊢
    rcases h with h | h
    · rw [show max 0 (qv - Q_max) = qv - Q_max from max_eq_right (by linarith)]
      nlinarith [sq_nonneg (max 0 (k - k_max)),
        mul_pos hpf (mul_pos (show (0:ℚ) < qv - Q_max by linarith)
          (show (0:ℚ) < qv - Q_max by linarith))]
    · rw [show max 0 (k - k_max) = k - k_max from max_eq_right (by linarith)]
      nlinarith [sq_nonneg (max 0 (qv - Q_max)),
        mul_pos hpf (mul_pos (show (0:ℚ) < k - k_max by linarith)
          (show (0:ℚ) < k - k_max by linarith))]
  | pinf =>
    unfold objective
    dsimp only
    rw [hQ]
    rw [if_pos (show FVal.flt (FVal.fin Q_max) FVal.pinf = true from rfl)]
    simp only [FVal.fsub, FVal.fneg, FVal.fadd, FVal.fmul]
    rw [if_pos hpf]
    split_ifs <;> rfl
  | ninf =>
    rw [hQ] at h
    rcases h with h | h
    · simp [FVal.flt] at h
    · unfold objective
      dsimp only
      rw [hQ]
      rw [if_neg (show ¬ FVal.flt (FVal.fin Q_max) FVal.ninf = true by
        simp [FVal.flt])]
      rw [if_pos h]
      simp only [FVal.fadd, FVal.flt, decide_eq_true_eq]
      nlinarith [mul_pos hpf (mul_pos (show (0:ℚ) < k - k_max by linarith)
        (show (0:ℚ) < k - k_max by linarith))]
  | nan =>
    rw [hQ] at h
    rcases h with h | h
    · simp [FVal.flt] at h
    · unfold objective
      dsimp only
      rw [hQ]
      rw [if_neg (show ¬ FVal.flt (FVal.fin Q_max) FVal.nan = true by
        simp [FVal.flt])]
      rw [if_pos h]
      simp only [FVal.fadd, FVal.flt, decide_eq_true_eq]
      nlinarith [mul_pos hpf (mul_pos (show (0:ℚ) < k - k_max by linarith)
        (show (0:ℚ) < k - k_max by linarith))]

/-- Strict monotonicity in the heat-flow violation: same base cost `t`,
`k`-feasible, larger violation means strictly larger fitness. -/
theorem objective_strictmono (lg : ℚ → ℚ) (piq pf k1 k2 t q1 q2 : ℚ)
    (hpf : 0 < pf)
    (h1 : heat_flow lg piq k1 t = FVal.fin q1)
    (h2 : heat_flow lg piq k2 t = FVal.fin q2)
    (hk1 : k1 ≤ k_max) (hk2 : k2 ≤ k_max)
    (hq1 : Q_max ≤ q1) (hlt : q1 < q2) :
    FVal.flt (objective lg piq pf (k1, t))
      (objective lg piq pf (k2, t)) = true := by
  rw [objective_decomp lg piq pf k1 t q1 h1,
    objective_decomp lg piq pf k2 t q2 h2,
    show max 0 (k1 - k_max) = 0 from max_eq_left (by linarith),
    show max 0 (k2 - k_max) = 0 from max_eq_left (by linarith),
    show max 0 (q1 - Q_max) = q1 - Q_max from max_eq_right (by linarith),
    show max 0 (q2 - Q_max) = q2 - Q_max from max_eq_right (by linarith)]
  simp only [FVal.flt, decide_eq_true_eq]
  nlinarith [mul_pos hpf (show (0:ℚ) < (q2 - Q_max) ^ 2 - (q1 - Q_max) ^ 2 by
    nlinarith)]

end Cilindro

namespace Placa

/-- Penalty decomposition of `fitness` inside the search box: base cost
`t_norm + k_norm` plus `max(0, violation)^2 * pf`. -/
theorem fitness_decomp (lg : ℚ → ℚ) (piq pf t k qv : ℚ)
    (hbox : (t_min ≤ t ∧ t ≤ t_max) ∧ (k_min ≤ k ∧ k ≤ k_max))
    (hQ : heat_flow lg piq k t = FVal.fin qv) :
    fitness lg piq pf (t, k) =
      FVal.fin ((t - t_min) / (t_max - t_min) +
        (k - k_min) / (k_max - k_min) + max 0 (qv - Q_max) ^ 2 * pf) := by
  unfold fitness
  dsimp only
  rw [if_neg (by push_neg; exact hbox), hQ]
  simp only [FVal.flt, FVal.fsub, FVal.fneg, FVal.fadd, FVal.fmul,
    decide_eq_true_eq]
  split_ifs with h1
  · congr 1
    rw [show max 0 (qv - Q_max) = qv - Q_max from max_eq_right (by linarith)]
    ring
  · congr 1
    rw [show max 0 (qv - Q_max) = 0 from max_eq_left (by linarith)]
    ring

/-- A feasible in-box individual is scored exactly by the normalized base
cost. -/
theorem fitness_feasible (lg : ℚ → ℚ) (piq pf t k qv : ℚ)
    (hbox : (t_min ≤ t ∧ t ≤ t_max) ∧ (k_min ≤ k ∧ k ≤ k_max))
    (hQ : heat_flow lg piq k t = FVal.fin qv) (hq : qv ≤ Q_max) :
    fitness lg piq pf (t, k) =
      FVal.fin ((t - t_min) / (t_max - t_min) +
        (k - k_min) / (k_max - k_min)) := by
  rw [fitness_decomp lg piq pf t k qv hbox hQ,
    show max 0 (qv - Q_max) = 0 from max_eq_left (by linarith)]
  norm_num

/-- An in-box individual violating the heat-flow constraint is scored
strictly above the base cost. -/
theorem fitness_exceeds_base (lg : ℚ → ℚ) (piq pf t k : ℚ) (hpf : 0 < pf)
    (hbox : (t_min ≤ t ∧ t ≤ t_max) ∧ (k_min ≤ k ∧ k ≤ k_max))
    (h : FVal.flt (FVal.fin Q_max) (heat_flow lg piq k t) = true) :
    FVal.flt
      (FVal.fin ((t - t_min) / (t_max - t_min) +
        (k - k_min) / (k_max - k_min)))
      (fitness lg piq pf (t, k)) = true := by
  cases hQ : heat_flow lg piq k t with
  | fin qv =>
    rw [hQ] at h
    rw [fitness_decomp lg piq pf t k qv hbox hQ]
    simp only [FVal.flt, decide_eq_true_eq] at h ⊢
    rw [show max 0 (qv - Q_max) = qv - Q_max from max_eq_right (by linarith)]
    nlinarith [mul_pos (mul_pos (show (0:ℚ) < qv - Q_max by linarith)
      (show (0:ℚ) < qv - Q_max by linarith)) hpf]
  | pinf =>
    unfold fitness
    dsimp only
    rw [if_neg (by push_neg; exact hbox), hQ]
    rw [if_pos (show FVal.flt (FVal.fin Q_max) FVal.pinf = true from rfl)]
    simp only [FVal.fsub, FVal.fneg, FVal.fadd, FVal.fmul]
    rw [if_pos hpf]
    rfl
  | ninf =>
    rw [hQ] at h
    simp [FVal.flt] at h
  | nan =>
    rw [hQ] at h
    simp [FVal.flt] at h

/-- Strict monotonicity in the heat-flow violation for a fixed in-box
individual (the violation varied through the physical model `lg`):
a larger violation means strictly larger fitness. -/
theorem fitness_strictmono (lg1 lg2 : ℚ → ℚ) (piq pf t k q1 q2 : ℚ)
    (hpf : 0 < pf)
    (hbox : (t_min ≤ t ∧ t ≤ t_max) ∧ (k_min ≤ k ∧ k ≤ k_max))
    (h1 : heat_flow lg1 piq k t = FVal.fin q1)
    (h2 : heat_flow lg2 piq k t = FVal.fin q2)
    (hq1 : Q_max ≤ q1) (hlt : q1 < q2) :
    FVal.flt (fitness lg1 piq pf (t, k))
      (fitness lg2 piq pf (t, k)) = true := by
  rw [fitness_decomp lg1 piq pf t k q1 hbox h1,
    fitness_decomp lg2 piq pf t k q2 hbox h2,
    show max 0 (q1 - Q_max) = q1 - Q_max from max_eq_right (by linarith),
    show max 0 (q2 - Q_max) = q2 - Q_max from max_eq_right (by linarith)]
  simp only [FVal.flt, decide_eq_true_eq]
  nlinarith [mul_pos (show (0:ℚ) < (q2 - Q_max) ^ 2 - (q1 - Q_max) ^ 2 by
    nlinarith) hpf]

end Placa

/-- C4: penalty correctness in both evaluators.  With a finite heat flow,
the fitness decomposes exactly into base cost plus
`penalty_factor * max(0, violation)^2` per inequality constraint,
penalties adding (cilindro has two constraints, placa one, plus its
hard out-of-box sentinel which is outside this claim's feasible scope);
a feasible individual is scored exactly by its base cost; an infeasible
one strictly above it; and the score grows strictly with the violation
magnitude. -/
theorem claim_C4 :
    (∀ (lg : ℚ → ℚ) (piq pf k t qv : ℚ),
      Cilindro.heat_flow lg piq k t = FVal.fin qv →
      Cilindro.objective lg piq pf (k, t) =
        FVal.fin (t + pf * max 0 (qv - Cilindro.Q_max) ^ 2 +
          pf * max 0 (k - Cilindro.k_max) ^ 2)) ∧
    (∀ (lg : ℚ → ℚ) (piq pf k t qv : ℚ),
      Cilindro.heat_flow lg piq k t = FVal.fin qv → qv ≤ Cilindro.Q_max →
      k ≤ Cilindro.k_max →
      Cilindro.objective lg piq pf (k, t) = FVal.fin t) ∧
    (∀ (lg : ℚ → ℚ) (piq pf k t : ℚ), 0 < pf →
      (FVal.flt (FVal.fin Cilindro.Q_max)
        (Cilindro.heat_flow lg piq k t) = true ∨ Cilindro.k_max < k) →
      FVal.flt (FVal.fin t) (Cilindro.objective lg piq pf (k, t)) = true) ∧
    (∀ (lg : ℚ → ℚ) (piq pf k1 k2 t q1 q2 : ℚ), 0 < pf →
      Cilindro.heat_flow lg piq k1 t = FVal.fin q1 →
      Cilindro.heat_flow lg piq k2 t = FVal.fin q2 →
      k1 ≤ Cilindro.k_max → k2 ≤ Cilindro.k_max →
      Cilindro.Q_max ≤ q1 → q1 < q2 →
      FVal.flt (Cilindro.objective lg piq pf (k1, t))
        (Cilindro.objective lg piq pf (k2, t)) = true) ∧
    (∀ (lg : ℚ → ℚ) (piq pf t k qv : ℚ),
      (Placa.t_min ≤ t ∧ t ≤ Placa.t_max) ∧
        (Placa.k_min ≤ k ∧ k ≤ Placa.k_max) →
      Placa.heat_flow lg piq k t = FVal.fin qv →
      Placa.fitness lg piq pf (t, k) =
        FVal.fin ((t - Placa.t_min) / (Placa.t_max - Placa.t_min) +
          (k - Placa.k_min) / (Placa.k_max - Placa.k_min) +
          max 0 (qv - Placa.Q_max) ^ 2 * pf)) ∧
    (∀ (lg : ℚ → ℚ) (piq pf t k qv : ℚ),
      (Placa.t_min ≤ t ∧ t ≤ Placa.t_max) ∧
        (Placa.k_min ≤ k ∧ k ≤ Placa.k_max) →
      Placa.heat_flow lg piq k t = FVal.fin qv → qv ≤ Placa.Q_max →
      Placa.fitness lg piq pf (t, k) =
        FVal.fin ((t - Placa.t_min) / (Placa.t_max - Placa.t_min) +
          (k - Placa.k_min) / (Placa.k_max - Placa.k_min))) ∧
    (∀ (lg : ℚ → ℚ) (piq pf t k : ℚ), 0 < pf →
      (Placa.t_min ≤ t ∧ t ≤ Placa.t_max) ∧
        (Placa.k_min ≤ k ∧ k ≤ Placa.k_max) →
      FVal.flt (FVal.fin Placa.Q_max) (Placa.heat_flow lg piq k t) = true →
      FVal.flt
        (FVal.fin ((t - Placa.t_min) / (Placa.t_max - Placa.t_min) +
          (k - Placa.k_min) / (Placa.k_max - Placa.k_min)))
        (Placa.fitness lg piq pf (t, k)) = true) ∧
    (∀ (lg1 lg2 : ℚ → ℚ) (piq pf t k q1 q2 : ℚ), 0 < pf →
      (Placa.t_min ≤ t ∧ t ≤ Placa.t_max) ∧
        (Placa.k_min ≤ k ∧ k ≤ Placa.k_max) →
      Placa.heat_flow lg1 piq k t = FVal.fin q1 →
      Placa.heat_flow lg2 piq k t = FVal.fin q2 →
      Placa.Q_max ≤ q1 → q1 < q2 →
      FVal.flt (Placa.fitness lg1 piq pf (t, k))
        (Placa.fitness lg2 piq pf (t, k)) = true) := by
  refine ⟨?_, ?_, ?_, ?_, ?_, ?_, ?_, ?_⟩
  · intro lg piq pf k t qv hQ
    exact Cilindro.objective_decomp lg piq pf k t qv hQ
  · intro lg piq pf k t qv hQ hq hk
    exact Cilindro.objective_feasible lg piq pf k t qv hQ hq hk
  · intro lg piq pf k t hpf h
    exact Cilindro.objective_exceeds_base lg piq pf k t hpf h
  · intro lg piq pf k1 k2 t q1 q2 hpf h1 h2 hk1 hk2 hq1 hlt
    exact Cilindro.objective_strictmono lg piq pf k1 k2 t q1 q2 hpf h1 h2
      hk1 hk2 hq1 hlt
  · intro lg piq pf t k qv hbox hQ
    exact Placa.fitness_decomp lg piq pf t k qv hbox hQ
  · intro lg piq pf t k qv hbox hQ hq
    exact Placa.fitness_feasible lg piq pf t k qv hbox hQ hq
  · intro lg piq pf t k hpf hbox h
    exact Placa.fitness_exceeds_base lg piq pf t k hpf hbox h
  · intro lg1 lg2 piq pf t k q1 q2 hpf hbox h1 h2 hq1 hlt
    exact Placa.fitness_strictmono lg1 lg2 piq pf t k q1 q2 hpf hbox h1 h2
      hq1 hlt

/-- Witness for C4 at concrete inputs: a feasible cilindro individual
scored exactly by its thickness, an infeasible one scored above it, a
strictly monotone violation pair, and the placa analogues. -/
theorem claim_C4_witness :
    (Cilindro.objective lgLin 3 10000 (0, 1/2) = FVal.fin (1/2)) ∧
    (FVal.flt (FVal.fin (1/2))
      (Cilindro.objective lgLin 3 10000 (1, 1/2)) = true) ∧
    (FVal.flt (Cilindro.objective lgLin 3 10000 (1/20, 1/10))
      (Cilindro.objective lgLin 3 10000 (3/50, 1/10)) = true) ∧
    (Placa.fitness lgLin 3 1000000 (1/10, 3/50) =
      FVal.fin ((1/10 - Placa.t_min) / (Placa.t_max - Placa.t_min) +
        (3/50 - Placa.k_min) / (Placa.k_max - Placa.k_min))) ∧
    (FVal.flt
      (FVal.fin ((1/10 - Placa.t_min) / (Placa.t_max - Placa.t_min) +
        (3/50 - Placa.k_min) / (Placa.k_max - Placa.k_min)))
      (Placa.fitness (fun _ => 1/100) 3 1000000 (1/10, 3/50)) = true) ∧
    (FVal.flt (Placa.fitness (fun _ => 1/100) 3 1000000 (1/10, 3/50))
      (Placa.fitness (fun _ => 1/200) 3 1000000 (1/10, 3/50)) = true) :=
  ⟨claim_C4.2.1 lgLin 3 10000 0 (1/2) 0
      (by norm_num [Cilindro.heat_flow, flog, Cilindro.r1, Cilindro.L,
        Cilindro.dT, lgLin, FVal.fdiv])
      (by norm_num [Cilindro.Q_max]) (by norm_num [Cilindro.k_max]),
   claim_C4.2.2.1 lgLin 3 10000 1 (1/2) (by norm_num)
      (Or.inr (by norm_num [Cilindro.k_max])),
   claim_C4.2.2.2.1 lgLin 3 10000 (1/20) (3/50) (1/10) 540 648
      (by norm_num)
      (by norm_num [Cilindro.heat_flow, flog, Cilindro.r1, Cilindro.L,
        Cilindro.dT, lgLin, FVal.fdiv])
      (by norm_num [Cilindro.heat_flow, flog, Cilindro.r1, Cilindro.L,
        Cilindro.dT, lgLin, FVal.fdiv])
      (by norm_num [Cilindro.k_max]) (by norm_num [Cilindro.k_max])
      (by norm_num [Cilindro.Q_max]) (by norm_num),
   claim_C4.2.2.2.2.2.1 lgLin 3 1000000 (1/10) (3/50) (29835/659)
      (by norm_num [Placa.t_min, Placa.t_max, Placa.k_min, Placa.k_max])
      (by norm_num [Placa.heat_flow, flog, Placa.r_i, Placa.L, Placa.dT,
        Placa.T_i, Placa.T_inf, Placa.h, lgLin, FVal.fdiv, FVal.fadd])
      (by norm_num [Placa.Q_max]),
   claim_C4.2.2.2.2.2.2.1 (fun _ => 1/100) 3 1000000 (1/10) (3/50)
      (by norm_num)
      (by norm_num [Placa.t_min, Placa.t_max, Placa.k_min, Placa.k_max])
      (by norm_num [Placa.heat_flow, flog, Placa.r_i, Placa.L, Placa.dT,
        Placa.T_i, Placa.T_inf, Placa.h, FVal.fdiv, FVal.fadd, FVal.flt,
        Placa.Q_max]),
   claim_C4.2.2.2.2.2.2.2 (fun _ => 1/100) (fun _ => 1/200) 3 1000000
      (1/10) (3/50) (198900/73) (397800/133) (by norm_num)
      (by norm_num [Placa.t_min, Placa.t_max, Placa.k_min, Placa.k_max])
      (by norm_num [Placa.heat_flow, flog, Placa.r_i, Placa.L, Placa.dT,
        Placa.T_i, Placa.T_inf, Placa.h, FVal.fdiv, FVal.fadd])
      (by norm_num [Placa.heat_flow, flog, Placa.r_i, Placa.L, Placa.dT,
        Placa.T_i, Placa.T_inf, Placa.h, FVal.fdiv, FVal.fadd])
      (by norm_num [Placa.Q_max]) (by norm_num)⟩

theorem qclip_eq_self (x low high : ℚ) (h1 : low ≤ x) (h2 : x ≤ high) :
    qclip x low high = x := by
  unfold qclip
  rw [max_eq_left h1, min_eq_left h2]

/-- C5 counterexample: `placa_plana`'s `run_GA` takes no seed and never
seeds the global generator, so two calls with identical configuration but
different ambient generator states return different results — already the
returned best thickness of a 1-individual, 0-generation run differs. -/
theorem claim_C5_counterexample :
    (Placa.run_GA lgLin 3 1 0 (9/10) (1/10) 1000000 zeroState).t_best ≠
      (Placa.run_GA lgLin 3 1 0 (9/10) (1/10) 1000000 halfState).t_best := by
  norm_num [Placa.run_GA, Placa.loop, Placa.initSt, Placa.init_population,
    uniformVec, uniform, randU, zeroState, zeroSrc, halfState, halfSrc,
    argminIdx, argminAux, Placa.t_min, Placa.t_max, Placa.k_min,
    Placa.k_max, Placa.evaluate]

/-- C5 (amended): `cilindro`'s `run_GA` calls `np.random.seed(seed)` once
at run start and every stochastic operation consumes that single seeded
stream, so its whole result is a function of the configuration (seed
included) alone — the ambient generator state at call time is immaterial.
`placa_plana`'s `run_GA`, by contrast, has no seed parameter and consumes
the ambient stream (see the counterexample). -/
theorem claim_C5 :
    ∀ (sf : ℕ → RSrc) (lg : ℚ → ℚ) (piq : ℚ) (cfg : Cilindro.Config)
      (a1 a2 : RState),
      Cilindro.run_GA sf lg piq cfg a1 = Cilindro.run_GA sf lg piq cfg a2 := by
  intro sf lg piq cfg a1 a2
  rfl

/-- C7 counterexample: with `mutation_rate = 0` `placa`'s `mutate` is not
the identity on every input individual — the unconditional final clip
moves out-of-bounds genes: the individual `(0, 0)` becomes
`(t_min, k_min)`. -/
theorem claim_C7_counterexample :
    (Placa.mutate (0, 0) 0 (1/200) (1/500) zeroState).1 ≠ (0, 0) := by
  norm_num [Placa.mutate, randU, zeroState, zeroSrc, qclip,
    Placa.t_min, Placa.t_max, Placa.k_min, Placa.k_max, Prod.ext_iff]

/-- C7 (amended): with `mutation_rate = 0` (and uniform draws in `[0,1)`,
so no coin flip can fire), the mutate step leaves every gene of every
**in-bounds** individual exactly unchanged, in both variants; `placa`'s
`mutate` additionally clips each gene of an arbitrary individual into the
search box (`cilindro`'s inline mutation is the identity on arbitrary
individuals). -/
theorem claim_C7 :
    (∀ (ind : ℚ × ℚ) (st sk : ℚ) (s : RState), ValidSrc s.src →
      Placa.t_min ≤ ind.1 → ind.1 ≤ Placa.t_max →
      Placa.k_min ≤ ind.2 → ind.2 ≤ Placa.k_max →
      (Placa.mutate ind 0 st sk s).1 = ind) ∧
    (∀ (ind : ℚ × ℚ) (st sk : ℚ) (s : RState), ValidSrc s.src →
      (Placa.mutate ind 0 st sk s).1 =
        (qclip ind.1 Placa.t_min Placa.t_max,
          qclip ind.2 Placa.k_min Placa.k_max)) ∧
    (∀ (cfg : Cilindro.Config) (c : ℚ × ℚ) (s : RState),
      cfg.mutation_rate = 0 → ValidSrc s.src →
      (Cilindro.mutateChild cfg c s).1 = c) := by
  refine ⟨?_, ?_, ?_⟩
  · intro ind st sk s hv h1 h2 h3 h4
    unfold Placa.mutate
    dsimp only
    rw [if_neg (by have := (hv s.up).1; simp only [randU]; linarith),
      if_neg (by have := (hv (s.up + 1)).1; simp only [randU]; linarith)]
    rw [qclip_eq_self _ _ _ h1 h2, qclip_eq_self _ _ _ h3 h4]
  · intro ind st sk s hv
    unfold Placa.mutate
    dsimp only
    rw [if_neg (by have := (hv s.up).1; simp only [randU]; linarith),
      if_neg (by have := (hv (s.up + 1)).1; simp only [randU]; linarith)]
  · intro cfg c s hmr hv
    unfold Cilindro.mutateChild Cilindro.mutateGene
    dsimp only
    rw [hmr]
    rw [if_neg (by have := (hv s.up).1; simp only [randU]; linarith),
      if_neg (by have := (hv (s.up + 1)).1; simp only [randU]; linarith)]

/-- Witness for C7: zero mutation rate leaves a concrete in-box individual
unchanged under both variants' mutate steps. -/
theorem claim_C7_witness :
    (Placa.mutate (1/10, 3/50) 0 (1/200) (1/500) zeroState).1 =
      (1/10, 3/50) ∧
    (Cilindro.mutateChild
      ⟨(1/50, 21/250), (1/200, 2/25), 2, 2, 4/5, 0, 3/10, 10000, 42⟩
      (1/25, 1/100) zeroState).1 = (1/25, 1/100) :=
  ⟨claim_C7.1 (1/10, 3/50) (1/200) (1/500) zeroState
      (fun n => ⟨le_refl 0, by norm_num [zeroState, zeroSrc]⟩)
      (by norm_num [Placa.t_min]) (by norm_num [Placa.t_max])
      (by norm_num [Placa.k_min]) (by norm_num [Placa.k_max]),
   claim_C7.2.2 ⟨(1/50, 21/250), (1/200, 2/25), 2, 2, 4/5, 0, 3/10, 10000, 42⟩
      (1/25, 1/100) zeroState rfl
      (fun n => ⟨le_refl 0, by norm_num [zeroState, zeroSrc]⟩)⟩

theorem randZVec_zp (bound : ℕ) :
    ∀ (n : ℕ) (s : RState), (randZVec bound n s).2.zp = s.zp + n := by
  intro n
  induction n with
  | zero => intro s; rfl
  | succ m ih =>
    intro s
    show (randZVec bound m (randZ bound s).2).2.zp = s.zp + (m + 1)
    rw [ih]
    simp [randZ]
    omega

theorem randZVec_up (bound : ℕ) :
    ∀ (n : ℕ) (s : RState), (randZVec bound n s).2.up = s.up := by
  intro n
  induction n with
  | zero => intro s; rfl
  | succ m ih => intro s; exact ih _

theorem randZVec_gp (bound : ℕ) :
    ∀ (n : ℕ) (s : RState), (randZVec bound n s).2.gp = s.gp := by
  intro n
  induction n with
  | zero => intro s; rfl
  | succ m ih => intro s; exact ih _

/-- C6: tournament selection in both variants draws its indices (2 for
cilindro, 3 for placa) with replacement from `[0, pop_size)` off the
integer stream — advancing it by exactly the tournament size and touching
nothing else — and returns the value of a population member whose fitness
is (weakly) the lowest among all drawn indices.  The source population is
a read-only input of the pure selection function (the engine's callers
copy the selected parent before mutating children in place). -/
theorem claim_C6 :
    (∀ (pop : List (ℚ × ℚ)) (fit : List FVal) (n : ℕ) (s : RState),
      0 < n → pop.length = n → fit.length = n →
      (∀ v ∈ fit, v ≠ FVal.nan) →
      (s.src.z s.zp % n < n ∧ s.src.z (s.zp + 1) % n < n) ∧
      ((Cilindro.tournament_selection pop fit n s).2.zp = s.zp + 2 ∧
        (Cilindro.tournament_selection pop fit n s).2.up = s.up ∧
        (Cilindro.tournament_selection pop fit n s).2.gp = s.gp ∧
        (Cilindro.tournament_selection pop fit n s).2.src = s.src) ∧
      (Cilindro.tournament_selection pop fit n s).1 ∈ pop ∧
      (∃ ci, ci < n ∧
        (ci = s.src.z s.zp % n ∨ ci = s.src.z (s.zp + 1) % n) ∧
        (Cilindro.tournament_selection pop fit n s).1 = pop.getD ci (0, 0) ∧
        FVal.fle (fit.getD ci FVal.nan)
          (fit.getD (s.src.z s.zp % n) FVal.nan) = true ∧
        FVal.fle (fit.getD ci FVal.nan)
          (fit.getD (s.src.z (s.zp + 1) % n) FVal.nan) = true)) ∧
    (∀ (pop : List (ℚ × ℚ)) (fit : List FVal) (s : RState),
      0 < pop.length → fit.length = pop.length →
      (∀ v ∈ fit, v ≠ FVal.nan) →
      ((randZVec pop.length 3 s).1.length = 3 ∧
        ∀ i ∈ (randZVec pop.length 3 s).1, i < pop.length) ∧
      ((Placa.tournament_selection pop fit 3 s).2.zp = s.zp + 3 ∧
        (Placa.tournament_selection pop fit 3 s).2.up = s.up ∧
        (Placa.tournament_selection pop fit 3 s).2.gp = s.gp ∧
        (Placa.tournament_selection pop fit 3 s).2.src = s.src) ∧
      (Placa.tournament_selection pop fit 3 s).1 ∈ pop ∧
      (∃ ci, ci < pop.length ∧ ci ∈ (randZVec pop.length 3 s).1 ∧
        (Placa.tournament_selection pop fit 3 s).1 = pop.getD ci (0, 0) ∧
        ∀ i ∈ (randZVec pop.length 3 s).1,
          FVal.fle (fit.getD ci FVal.nan)
            (fit.getD i FVal.nan) = true)) := by
  constructor
  · intro pop fit n s hn hpop hfit hnn
    have hi1 : s.src.z s.zp % n < n := Nat.mod_lt _ hn
    have hi2 : s.src.z (s.zp + 1) % n < n := Nat.mod_lt _ hn
    have hm1 : fit.getD (s.src.z s.zp % n) FVal.nan ∈ fit :=
      getD_mem _ _ (by omega) _
    have hm2 : fit.getD (s.src.z (s.zp + 1) % n) FVal.nan ∈ fit :=
      getD_mem _ _ (by omega) _
    refine ⟨⟨hi1, hi2⟩, ⟨rfl, rfl, rfl, rfl⟩,
      Cilindro.tournament_selection_mem pop fit n s hn hpop, ?_⟩
    unfold Cilindro.tournament_selection
    dsimp only
    simp only [randZ]
    split
    · rename_i h
      exact ⟨s.src.z s.zp % n, hi1, Or.inl rfl, rfl,
        FVal.fle_refl _ (hnn _ hm1), FVal.fle_of_flt h⟩
    · rename_i h
      have hf : FVal.flt (fit.getD (s.src.z s.zp % n) FVal.nan)
          (fit.getD (s.src.z (s.zp + 1) % n) FVal.nan) = false := by
        simp only [Bool.not_eq_true] at h
        exact h
      exact ⟨s.src.z (s.zp + 1) % n, hi2, Or.inr rfl, rfl,
        FVal.fle_of_not_flt (hnn _ hm1) (hnn _ hm2) hf,
        FVal.fle_refl _ (hnn _ hm2)⟩
  · intro pop fit s hp hfit hnn
    have hlen3 : (randZVec pop.length 3 s).1.length = 3 :=
      randZVec_len pop.length 3 s
    have hlt : ∀ i ∈ (randZVec pop.length 3 s).1, i < pop.length :=
      randZVec_lt pop.length hp 3 s
    have hgnn : ∀ w ∈ (randZVec pop.length 3 s).1.map
        (fun i => fit.getD i FVal.nan), w ≠ FVal.nan := by
      intro w hw
      obtain ⟨i, hi, rfl⟩ := List.mem_map.mp hw
      exact hnn _ (getD_mem _ _ (by rw [hfit]; exact hlt i hi) _)
    have hgne : (randZVec pop.length 3 s).1.map
        (fun i => fit.getD i FVal.nan) ≠ [] := by
      intro hc
      have := congrArg List.length hc
      simp [hlen3] at this
    have hargmin : argminIdx ((randZVec pop.length 3 s).1.map
        (fun i => fit.getD i FVal.nan)) < (randZVec pop.length 3 s).1.length := by
      have := argminIdx_lt _ hgne
      simpa using this
    have hchosen_mem : (randZVec pop.length 3 s).1.getD
        (argminIdx ((randZVec pop.length 3 s).1.map
          (fun i => fit.getD i FVal.nan))) 0 ∈ (randZVec pop.length 3 s).1 :=
      getD_mem _ _ hargmin _
    have hchosen_lt : (randZVec pop.length 3 s).1.getD
        (argminIdx ((randZVec pop.length 3 s).1.map
          (fun i => fit.getD i FVal.nan))) 0 < pop.length :=
      hlt _ hchosen_mem
    refine ⟨⟨hlen3, hlt⟩, ?_, ?_, ?_⟩
    · unfold Placa.tournament_selection
      dsimp only
      exact ⟨randZVec_zp _ _ _, randZVec_up _ _ _, randZVec_gp _ _ _,
        randZVec_src _ _ _⟩
    · exact Placa.tournament_selection_mem_p pop fit 3 s hp
    · refine ⟨_, hchosen_lt, hchosen_mem, rfl, ?_⟩
      intro i hi
      have hkey : fit.getD ((randZVec pop.length 3 s).1.getD
          (argminIdx ((randZVec pop.length 3 s).1.map
            (fun j => fit.getD j FVal.nan))) 0) FVal.nan =
          ((randZVec pop.length 3 s).1.map
            (fun j => fit.getD j FVal.nan)).getD
            (argminIdx ((randZVec pop.length 3 s).1.map
              (fun j => fit.getD j FVal.nan))) FVal.nan := by
        rw [getD_map_eq _ _ _ hargmin _ 0]
      rw [hkey]
      exact best_le_all _ hgnn _ (List.mem_map_of_mem _ hi)

/-- Witness for C6 at a concrete two-member population and stream. -/
theorem claim_C6_witness :
    ((zeroState.src.z zeroState.zp % 2 < 2 ∧
        zeroState.src.z (zeroState.zp + 1) % 2 < 2) ∧
      ((Cilindro.tournament_selection [(1, 2), (3, 4)]
          [FVal.fin 1, FVal.fin 2] 2 zeroState).2.zp = zeroState.zp + 2 ∧
        (Cilindro.tournament_selection [(1, 2), (3, 4)]
          [FVal.fin 1, FVal.fin 2] 2 zeroState).2.up = zeroState.up ∧
        (Cilindro.tournament_selection [(1, 2), (3, 4)]
          [FVal.fin 1, FVal.fin 2] 2 zeroState).2.gp = zeroState.gp ∧
        (Cilindro.tournament_selection [(1, 2), (3, 4)]
          [FVal.fin 1, FVal.fin 2] 2 zeroState).2.src = zeroState.src) ∧
      (Cilindro.tournament_selection [(1, 2), (3, 4)]
        [FVal.fin 1, FVal.fin 2] 2 zeroState).1 ∈ [(1, 2), (3, 4)] ∧
      (∃ ci, ci < 2 ∧
        (ci = zeroState.src.z zeroState.zp % 2 ∨
          ci = zeroState.src.z (zeroState.zp + 1) % 2) ∧
        (Cilindro.tournament_selection [(1, 2), (3, 4)]
          [FVal.fin 1, FVal.fin 2] 2 zeroState).1 =
            [(1, 2), (3, 4)].getD ci (0, 0) ∧
        FVal.fle ([FVal.fin 1, FVal.fin 2].getD ci FVal.nan)
          ([FVal.fin 1, FVal.fin 2].getD
            (zeroState.src.z zeroState.zp % 2) FVal.nan) = true ∧
        FVal.fle ([FVal.fin 1, FVal.fin 2].getD ci FVal.nan)
          ([FVal.fin 1, FVal.fin 2].getD
            (zeroState.src.z (zeroState.zp + 1) % 2) FVal.nan) = true)) ∧
    (((randZVec 2 3 zeroState).1.length = 3 ∧
        ∀ i ∈ (randZVec 2 3 zeroState).1, i < 2) ∧
      ((Placa.tournament_selection [(1, 2), (3, 4)]
          [FVal.fin 1, FVal.fin 2] 3 zeroState).2.zp = zeroState.zp + 3 ∧
        (Placa.tournament_selection [(1, 2), (3, 4)]
          [FVal.fin 1, FVal.fin 2] 3 zeroState).2.up = zeroState.up ∧
        (Placa.tournament_selection [(1, 2), (3, 4)]
          [FVal.fin 1, FVal.fin 2] 3 zeroState).2.gp = zeroState.gp ∧
        (Placa.tournament_selection [(1, 2), (3, 4)]
          [FVal.fin 1, FVal.fin 2] 3 zeroState).2.src = zeroState.src) ∧
      (Placa.tournament_selection [(1, 2), (3, 4)]
        [FVal.fin 1, FVal.fin 2] 3 zeroState).1 ∈ [(1, 2), (3, 4)] ∧
      (∃ ci, ci < [((1 : ℚ), (2 : ℚ)), (3, 4)].length ∧
        ci ∈ (randZVec [((1 : ℚ), (2 : ℚ)), (3, 4)].length 3 zeroState).1 ∧
        (Placa.tournament_selection [(1, 2), (3, 4)]
          [FVal.fin 1, FVal.fin 2] 3 zeroState).1 =
            [((1 : ℚ), (2 : ℚ)), (3, 4)].getD ci (0, 0) ∧
        ∀ i ∈ (randZVec [((1 : ℚ), (2 : ℚ)), (3, 4)].length 3 zeroState).1,
          FVal.fle ([FVal.fin 1, FVal.fin 2].getD ci FVal.nan)
            ([FVal.fin 1, FVal.fin 2].getD i FVal.nan) = true)) :=
  ⟨claim_C6.1 [(1, 2), (3, 4)] [FVal.fin 1, FVal.fin 2] 2 zeroState
      (by decide) (by decide) (by decide) (by decide),
   claim_C6.2 [(1, 2), (3, 4)] [FVal.fin 1, FVal.fin 2] zeroState
      (by decide) (by decide) (by decide)⟩

namespace Cilindro

theorem loop_hist_len (lg : ℚ → ℚ) (piq : ℚ) (cfg : Config) :
    ∀ (n : ℕ) (s : St),
      (loop lg piq cfg n s).best_hist.length = s.best_hist.length + n ∧
      (loop lg piq cfg n s).worst_hist.length = s.worst_hist.length + n ∧
      (loop lg piq cfg n s).avg_hist.length = s.avg_hist.length + n ∧
      (loop lg piq cfg n s).best_t_hist.length = s.best_t_hist.length + n ∧
      (loop lg piq cfg n s).best_Q_hist.length = s.best_Q_hist.length + n := by
  intro n
  induction n with
  | zero => intro s; exact ⟨rfl, rfl, rfl, rfl, rfl⟩
  | succ m ih =>
    intro s
    rw [loop_succ_right]
    obtain ⟨h1, h2, h3, h4, h5⟩ := ih s
    refine ⟨?_, ?_, ?_, ?_, ?_⟩ <;>
      simp only [step, List.length_append, List.length_cons,
        List.length_nil, h1, h2, h3, h4, h5] <;>
      omega

end Cilindro

namespace Placa

theorem loop_hist_len_p (lg : ℚ → ℚ) (piq : ℚ) (N : ℕ) (pc pm pf : ℚ) :
    ∀ (n : ℕ) (s : St),
      (loop lg piq N pc pm pf n s).best_fit_hist.length =
        s.best_fit_hist.length + n ∧
      (loop lg piq N pc pm pf n s).worst_fit_hist.length =
        s.worst_fit_hist.length + n ∧
      (loop lg piq N pc pm pf n s).mean_fit_hist.length =
        s.mean_fit_hist.length + n ∧
      (loop lg piq N pc pm pf n s).best_t_hist.length =
        s.best_t_hist.length + n ∧
      (loop lg piq N pc pm pf n s).best_k_hist.length =
        s.best_k_hist.length + n ∧
      (loop lg piq N pc pm pf n s).best_Q_hist.length =
        s.best_Q_hist.length + n := by
  intro n
  induction n with
  | zero => intro s; exact ⟨rfl, rfl, rfl, rfl, rfl, rfl⟩
  | succ m ih =>
    intro s
    rw [loop_succ_right_p]
    obtain ⟨h1, h2, h3, h4, h5, h6⟩ := ih s
    refine ⟨?_, ?_, ?_, ?_, ?_, ?_⟩ <;>
      simp only [step, List.length_append, List.length_cons,
        List.length_nil, h1, h2, h3, h4, h5, h6] <;>
      omega

end Placa

/-- A small odd-size cilindro configuration (population 3). -/
def cilOddCfg : Cilindro.Config :=
  ⟨(1/50, 21/250), (1/200, 2/25), 3, 1, 4/5, 3/10, 3/10, 10000, 7⟩

/-- C8: the population holds exactly `pop_size` individuals in every
generation, in both variants, including odd sizes: the replacement loop
starts with the elite copy and appends children one by one, stopping
exactly at `pop_size` (when one slot remains, a single child of the pair
is appended and the other discarded). -/
theorem claim_C8 :
    (∀ (sf : ℕ → RSrc) (lg : ℚ → ℚ) (piq : ℚ) (cfg : Cilindro.Config),
      1 ≤ cfg.pop_size → ∀ (g : ℕ),
      (Cilindro.popAt sf lg piq cfg g).length = cfg.pop_size) ∧
    (∀ (lg : ℚ → ℚ) (piq : ℚ) (N : ℕ) (pc pm pf : ℚ) (a : RState),
      1 ≤ N → ∀ (g : ℕ),
      (Placa.popAt lg piq N pc pm pf a g).length = N) := by
  constructor
  · intro sf lg piq cfg hN g
    exact (Cilindro.loop_good lg piq cfg hN g _
      (Cilindro.init_good sf lg piq cfg)).2
  · intro lg piq N pc pm pf a hN g
    exact (Placa.loop_good_p lg piq N pc pm pf hN g _
      (Placa.init_good_p lg piq N pf a)).2

/-- Witness for C8 with an odd population size (3) after one replacement. -/
theorem claim_C8_witness :
    (Cilindro.popAt (fun _ => halfSrc) lgLin 3 cilOddCfg 1).length = 3 ∧
    (Placa.popAt lgLin 3 3 (9/10) (1/10) 1000000 halfState 1).length = 3 :=
  ⟨claim_C8.1 (fun _ => halfSrc) lgLin 3 cilOddCfg
      (by norm_num [cilOddCfg]) 1,
   claim_C8.2 lgLin 3 3 (9/10) (1/10) 1000000 halfState (by norm_num) 1⟩

/-- A configuration with invalid bounds (`low > high` in both genes). -/
def cilBadCfg : Cilindro.Config := ⟨(1, 0), (1, 0), 1, 1, 1/2, 1/2, 1/10, 10000, 0⟩

/-- C9 counterexample: with invalid bounds (`low = 1 > 0 = high`)
`cilindro`'s `run_GA` does not fail fast — it initializes, evaluates and
runs its generation: the returned history has an entry, so a generation
ran on an invalid configuration. -/
theorem claim_C9_counterexample :
    (Cilindro.run_GA (fun _ => zeroSrc) lgLin 3 cilBadCfg
      zeroState).best_hist.length = 1 := by decide

/-- A cilindro configuration with invalid bounds and zero generations. -/
def cilZeroGenCfg : Cilindro.Config :=
  ⟨(1, 0), (1, 0), 2, 0, 1/2, 1/2, 1/10, 10000, 0⟩

/-- A cilindro configuration with invalid bounds (`low > high`), an
out-of-range crossover probability (2) and mutation rate 0. -/
def cilBadCfg2 : Cilindro.Config := ⟨(1, 0), (1, 0), 2, 3, 2, 0, 1/10, 10000, 0⟩

/-- C9 (amended): neither `run_GA` performs any upfront configuration
validation.  The population is always initialized and evaluated first,
for any configuration — invalid bounds included (`np.random.uniform` does
not check `low <= high`).  A zero generation count is accepted and the run
returns normally with empty histories and the argmin of the initial
population (`pop_size >= 1`).  With `pop_size >= 1`, a run with invalid
bounds or out-of-range probabilities executes all its generations and
returns full histories whenever no firing mutation has to draw a normal
with a negative numpy scale — e.g. whenever
`mutation_scale * (high - low) >= 0` for both genes, or the mutation rate
is at most 0 (`placa`'s sigmas are fixed positive constants, so its runs
complete for any rates).  The failures an invalid configuration can cause
in numpy (ValueError from `np.random.normal` with a negative scale once a
mutation fires under inverted bounds; ValueError at `np.argmin` of an
empty array when `pop_size <= 0`) happen mid-run, after initialization
and evaluation — never as an upfront check, so those configurations are
outside this theorem's hypotheses rather than rejected at run start. -/
theorem claim_C9 :
    (∀ (sf : ℕ → RSrc) (lg : ℚ → ℚ) (piq : ℚ) (cfg : Cilindro.Config),
      (Cilindro.popAt sf lg piq cfg 0).length = cfg.pop_size) ∧
    (∀ (lg : ℚ → ℚ) (piq : ℚ) (N : ℕ) (pc pm pf : ℚ) (a : RState),
      (Placa.popAt lg piq N pc pm pf a 0).length = N) ∧
    (∀ (sf : ℕ → RSrc) (lg : ℚ → ℚ) (piq : ℚ) (cfg : Cilindro.Config)
        (a : RState), cfg.generations = 0 → 1 ≤ cfg.pop_size →
      (Cilindro.run_GA sf lg piq cfg a).best_hist = [] ∧
      (Cilindro.run_GA sf lg piq cfg a).best_fitness =
        minD (Cilindro.evaluate lg piq cfg.penalty_factor
          (Cilindro.popAt sf lg piq cfg 0))) ∧
    (∀ (lg : ℚ → ℚ) (piq : ℚ) (N : ℕ) (pc pm pf : ℚ) (a : RState),
      1 ≤ N →
      (Placa.run_GA lg piq N 0 pc pm pf a).best_fit = [] ∧
      ((Placa.run_GA lg piq N 0 pc pm pf a).t_best,
        (Placa.run_GA lg piq N 0 pc pm pf a).k_best) =
        (Placa.popAt lg piq N pc pm pf a 0).getD
          (argminIdx (Placa.evaluate lg piq pf
            (Placa.popAt lg piq N pc pm pf a 0))) (0, 0)) ∧
    (∀ (sf : ℕ → RSrc) (lg : ℚ → ℚ) (piq : ℚ) (cfg : Cilindro.Config)
        (a : RState), 1 ≤ cfg.pop_size →
      ((0 ≤ cfg.mutation_scale * (cfg.bk.2 - cfg.bk.1) ∧
          0 ≤ cfg.mutation_scale * (cfg.bt.2 - cfg.bt.1)) ∨
        (cfg.mutation_rate ≤ 0 ∧ ValidSrc (sf cfg.seed))) →
      (Cilindro.run_GA sf lg piq cfg a).best_hist.length =
        cfg.generations ∧
      (Cilindro.run_GA sf lg piq cfg a).worst_hist.length =
        cfg.generations ∧
      (Cilindro.run_GA sf lg piq cfg a).avg_hist.length =
        cfg.generations ∧
      (Cilindro.run_GA sf lg piq cfg a).best_t_hist.length =
        cfg.generations ∧
      (Cilindro.run_GA sf lg piq cfg a).best_Q_hist.length =
        cfg.generations) ∧
    (∀ (lg : ℚ → ℚ) (piq : ℚ) (N G : ℕ) (pc pm pf : ℚ) (a : RState),
      1 ≤ N →
      (Placa.run_GA lg piq N G pc pm pf a).best_fit.length = G ∧
      (Placa.run_GA lg piq N G pc pm pf a).worst_fit.length = G ∧
      (Placa.run_GA lg piq N G pc pm pf a).mean_fit.length = G ∧
      (Placa.run_GA lg piq N G pc pm pf a).t_hist.length = G ∧
      (Placa.run_GA lg piq N G pc pm pf a).k_hist.length = G ∧
      (Placa.run_GA lg piq N G pc pm pf a).Q_hist.length = G) := by
  refine ⟨?_, ?_, ?_, ?_, ?_, ?_⟩
  · intro sf lg piq cfg
    exact (Cilindro.init_good sf lg piq cfg).2
  · intro lg piq N pc pm pf a
    exact (Placa.init_good_p lg piq N pf a).2
  · intro sf lg piq cfg a hG hN
    constructor
    · show (Cilindro.loop lg piq cfg cfg.generations
        (Cilindro.initSt sf lg piq cfg)).best_hist = []
      rw [hG]
      rfl
    · show minD ((Cilindro.loop lg piq cfg cfg.generations
        (Cilindro.initSt sf lg piq cfg)).fit) = _
      rw [hG]
      rfl
  · intro lg piq N pc pm pf a hN
    exact ⟨rfl, rfl⟩
  · intro sf lg piq cfg a hN hsafe
    obtain ⟨h1, h2, h3, h4, h5⟩ :=
      Cilindro.loop_hist_len lg piq cfg cfg.generations
        (Cilindro.initSt sf lg piq cfg)
    refine ⟨?_, ?_, ?_, ?_, ?_⟩
    · show (Cilindro.loop lg piq cfg cfg.generations
        (Cilindro.initSt sf lg piq cfg)).best_hist.length = cfg.generations
      rw [h1]
      simp [Cilindro.initSt]
    · show (Cilindro.loop lg piq cfg cfg.generations
        (Cilindro.initSt sf lg piq cfg)).worst_hist.length = cfg.generations
      rw [h2]
      simp [Cilindro.initSt]
    · show (Cilindro.loop lg piq cfg cfg.generations
        (Cilindro.initSt sf lg piq cfg)).avg_hist.length = cfg.generations
      rw [h3]
      simp [Cilindro.initSt]
    · show (Cilindro.loop lg piq cfg cfg.generations
        (Cilindro.initSt sf lg piq cfg)).best_t_hist.length = cfg.generations
      rw [h4]
      simp [Cilindro.initSt]
    · show (Cilindro.loop lg piq cfg cfg.generations
        (Cilindro.initSt sf lg piq cfg)).best_Q_hist.length = cfg.generations
      rw [h5]
      simp [Cilindro.initSt]
  · intro lg piq N G pc pm pf a hN
    obtain ⟨h1, h2, h3, h4, h5, h6⟩ :=
      Placa.loop_hist_len_p lg piq N pc pm pf G (Placa.initSt lg piq N pf a)
    refine ⟨?_, ?_, ?_, ?_, ?_, ?_⟩
    · show (Placa.loop lg piq N pc pm pf G
        (Placa.initSt lg piq N pf a)).best_fit_hist.length = G
      rw [h1]
      simp [Placa.initSt]
    · show (Placa.loop lg piq N pc pm pf G
        (Placa.initSt lg piq N pf a)).worst_fit_hist.length = G
      rw [h2]
      simp [Placa.initSt]
    · show (Placa.loop lg piq N pc pm pf G
        (Placa.initSt lg piq N pf a)).mean_fit_hist.length = G
      rw [h3]
      simp [Placa.initSt]
    · show (Placa.loop lg piq N pc pm pf G
        (Placa.initSt lg piq N pf a)).best_t_hist.length = G
      rw [h4]
      simp [Placa.initSt]
    · show (Placa.loop lg piq N pc pm pf G
        (Placa.initSt lg piq N pf a)).best_k_hist.length = G
      rw [h5]
      simp [Placa.initSt]
    · show (Placa.loop lg piq N pc pm pf G
        (Placa.initSt lg piq N pf a)).best_Q_hist.length = G
      rw [h6]
      simp [Placa.initSt]

/-- Witness for C9: initialization under inverted bounds; a normal return
with empty history at zero generations; and full histories at an invalid
configuration (inverted bounds, crossover probability 2, mutation rate 0,
3 generations) that also runs to completion in numpy. -/
theorem claim_C9_witness :
    ((Cilindro.popAt (fun _ => zeroSrc) lgLin 3 cilBadCfg2 0).length =
      cilBadCfg2.pop_size) ∧
    ((Cilindro.run_GA (fun _ => zeroSrc) lgLin 3 cilZeroGenCfg
        zeroState).best_hist = [] ∧
      (Cilindro.run_GA (fun _ => zeroSrc) lgLin 3 cilZeroGenCfg
        zeroState).best_fitness =
        minD (Cilindro.evaluate lgLin 3 cilZeroGenCfg.penalty_factor
          (Cilindro.popAt (fun _ => zeroSrc) lgLin 3 cilZeroGenCfg 0))) ∧
    ((Placa.run_GA lgLin 3 2 0 (9/10) (1/10) 1000000
        zeroState).best_fit = []) ∧
    ((Cilindro.run_GA (fun _ => zeroSrc) lgLin 3 cilBadCfg2
        zeroState).best_hist.length = cilBadCfg2.generations) ∧
    ((Placa.run_GA lgLin 3 2 5 (9/10) (1/10) 1000000
        zeroState).best_fit.length = 5) :=
  ⟨claim_C9.1 (fun _ => zeroSrc) lgLin 3 cilBadCfg2,
   claim_C9.2.2.1 (fun _ => zeroSrc) lgLin 3 cilZeroGenCfg zeroState rfl
     (by norm_num [cilZeroGenCfg]),
   (claim_C9.2.2.2.1 lgLin 3 2 (9/10) (1/10) 1000000 zeroState
     (by norm_num)).1,
   (claim_C9.2.2.2.2.1 (fun _ => zeroSrc) lgLin 3 cilBadCfg2 zeroState
     (by norm_num [cilBadCfg2])
     (Or.inr ⟨by norm_num [cilBadCfg2],
       fun n => ⟨le_refl 0, by norm_num [zeroSrc]⟩⟩)).1,
   (claim_C9.2.2.2.2.2 lgLin 3 2 5 (9/10) (1/10) 1000000 zeroState
     (by norm_num)).1⟩

namespace Cilindro

/-- At every generation the fitness array is the evaluation of the
current population (true by construction for every iterate). -/
theorem loop_fit_eval (sf : ℕ → RSrc) (lg : ℚ → ℚ) (piq : ℚ)
    (cfg : Config) :
    ∀ g, (loop lg piq cfg g (initSt sf lg piq cfg)).fit =
      evaluate lg piq cfg.penalty_factor
        (loop lg piq cfg g (initSt sf lg piq cfg)).pop := by
  intro g
  cases g with
  | zero => rfl
  | succ m =>
    rw [loop_succ_right]
    exact step_fit lg piq cfg _

end Cilindro

namespace Placa

/-- At every generation the fitness array is the evaluation of the
current population. -/
theorem loop_fit_eval_p (lg : ℚ → ℚ) (piq : ℚ) (N : ℕ) (pc pm pf : ℚ)
    (a : RState) :
    ∀ g, (loop lg piq N pc pm pf g (initSt lg piq N pf a)).fit =
      evaluate lg piq pf
        (loop lg piq N pc pm pf g (initSt lg piq N pf a)).pop := by
  intro g
  cases g with
  | zero => rfl
  | succ m =>
    rw [loop_succ_right_p]
    exact step_fit_p lg piq N pc pm pf _

end Placa

/-- The cilindro configuration of the concrete C10 run: gene `k` pinned to
0, gene `t` in `[1, 2]`, population 2, one generation, certain crossover
and mutation, mutation scale 1/10. -/
def cilC10Cfg : Cilindro.Config := ⟨(0, 0), (1, 2), 2, 1, 1, 1, 1/10, 10000, 0⟩

/-- C10: each history array `run_GA` returns has exactly `generations`
entries; entry `g` records the statistics of the population as it stands
before the `g`-th replacement (the best entry is the argmin of that
population's evaluation); the population produced by the final
replacement is evaluated and its argmin is returned as the result's best
individual and fitness but never appended to the history; hence the
returned best fitness is at most the last recorded entry — and can be
strictly below it, as the final concrete run shows. -/
theorem claim_C10 :
    (∀ (sf : ℕ → RSrc) (lg : ℚ → ℚ) (piq : ℚ) (cfg : Cilindro.Config)
        (a : RState),
      (Cilindro.run_GA sf lg piq cfg a).best_hist.length =
        cfg.generations ∧
      (Cilindro.run_GA sf lg piq cfg a).worst_hist.length =
        cfg.generations ∧
      (Cilindro.run_GA sf lg piq cfg a).avg_hist.length =
        cfg.generations ∧
      (Cilindro.run_GA sf lg piq cfg a).best_t_hist.length =
        cfg.generations ∧
      (Cilindro.run_GA sf lg piq cfg a).best_Q_hist.length =
        cfg.generations) ∧
    (∀ (lg : ℚ → ℚ) (piq : ℚ) (N G : ℕ) (pc pm pf : ℚ) (a : RState),
      (Placa.run_GA lg piq N G pc pm pf a).best_fit.length = G ∧
      (Placa.run_GA lg piq N G pc pm pf a).worst_fit.length = G ∧
      (Placa.run_GA lg piq N G pc pm pf a).mean_fit.length = G ∧
      (Placa.run_GA lg piq N G pc pm pf a).t_hist.length = G ∧
      (Placa.run_GA lg piq N G pc pm pf a).k_hist.length = G ∧
      (Placa.run_GA lg piq N G pc pm pf a).Q_hist.length = G) ∧
    (∀ (sf : ℕ → RSrc) (lg : ℚ → ℚ) (piq : ℚ) (cfg : Cilindro.Config)
        (a : RState) (g : ℕ), g < cfg.generations →
      (Cilindro.run_GA sf lg piq cfg a).best_hist.getD g FVal.nan =
        minD (Cilindro.evaluate lg piq cfg.penalty_factor
          (Cilindro.popAt sf lg piq cfg g))) ∧
    (∀ (lg : ℚ → ℚ) (piq : ℚ) (N G : ℕ) (pc pm pf : ℚ) (a : RState)
        (g : ℕ), g < G →
      (Placa.run_GA lg piq N G pc pm pf a).best_fit.getD g FVal.nan =
        minD (Placa.evaluate lg piq pf (Placa.popAt lg piq N pc pm pf a g))) ∧
    (∀ (sf : ℕ → RSrc) (lg : ℚ → ℚ) (piq : ℚ) (cfg : Cilindro.Config)
        (a : RState),
      (Cilindro.run_GA sf lg piq cfg a).best_fitness =
        minD (Cilindro.evaluate lg piq cfg.penalty_factor
          (Cilindro.popAt sf lg piq cfg cfg.generations)) ∧
      (Cilindro.run_GA sf lg piq cfg a).best_individual =
        (Cilindro.popAt sf lg piq cfg cfg.generations).getD
          (argminIdx (Cilindro.evaluate lg piq cfg.penalty_factor
            (Cilindro.popAt sf lg piq cfg cfg.generations))) (0, 0)) ∧
    (∀ (lg : ℚ → ℚ) (piq : ℚ) (N G : ℕ) (pc pm pf : ℚ) (a : RState),
      ((Placa.run_GA lg piq N G pc pm pf a).t_best,
        (Placa.run_GA lg piq N G pc pm pf a).k_best) =
        (Placa.popAt lg piq N pc pm pf a G).getD
          (argminIdx (Placa.evaluate lg piq pf
            (Placa.popAt lg piq N pc pm pf a G))) (0, 0)) ∧
    (∀ (sf : ℕ → RSrc) (lg : ℚ → ℚ) (piq : ℚ) (cfg : Cilindro.Config)
        (a : RState), 0 < cfg.penalty_factor → 1 ≤ cfg.pop_size →
        1 ≤ cfg.generations →
      FVal.fle (Cilindro.run_GA sf lg piq cfg a).best_fitness
        ((Cilindro.run_GA sf lg piq cfg a).best_hist.getD
          (cfg.generations - 1) FVal.nan) = true) ∧
    ((Cilindro.run_GA (fun _ => halfSrc) lgLin 3 cilC10Cfg
        zeroState).best_fitness ≠
      (Cilindro.run_GA (fun _ => halfSrc) lgLin 3 cilC10Cfg
        zeroState).best_hist.getD 0 FVal.nan) := by
  have centry : ∀ (sf : ℕ → RSrc) (lg : ℚ → ℚ) (piq : ℚ)
      (cfg : Cilindro.Config) (a : RState) (g : ℕ), g < cfg.generations →
      (Cilindro.run_GA sf lg piq cfg a).best_hist.getD g FVal.nan =
        minD (Cilindro.evaluate lg piq cfg.penalty_factor
          (Cilindro.popAt sf lg piq cfg g)) := by
    intro sf lg piq cfg a g hg
    have hbh : (Cilindro.run_GA sf lg piq cfg a).best_hist =
        (List.range cfg.generations).map
          (fun g => minD ((Cilindro.loop lg piq cfg g
            (Cilindro.initSt sf lg piq cfg)).fit)) := by
      show (Cilindro.loop lg piq cfg cfg.generations
        (Cilindro.initSt sf lg piq cfg)).best_hist = _
      rw [Cilindro.loop_best_hist]
      rfl
    rw [hbh, getD_map_range _ _ _ hg, Cilindro.loop_fit_eval]
    rfl
  have pentry : ∀ (lg : ℚ → ℚ) (piq : ℚ) (N G : ℕ) (pc pm pf : ℚ)
      (a : RState) (g : ℕ), g < G →
      (Placa.run_GA lg piq N G pc pm pf a).best_fit.getD g FVal.nan =
        minD (Placa.evaluate lg piq pf
          (Placa.popAt lg piq N pc pm pf a g)) := by
    intro lg piq N G pc pm pf a g hg
    have hbh : (Placa.run_GA lg piq N G pc pm pf a).best_fit =
        (List.range G).map
          (fun g => minD ((Placa.loop lg piq N pc pm pf g
            (Placa.initSt lg piq N pf a)).fit)) := by
      show (Placa.loop lg piq N pc pm pf G
        (Placa.initSt lg piq N pf a)).best_fit_hist = _
      rw [Placa.loop_best_hist_p]
      rfl
    rw [hbh, getD_map_range _ _ _ hg, Placa.loop_fit_eval_p]
    rfl
  refine ⟨?_, ?_, centry, pentry, ?_, ?_, ?_, ?_⟩
  · intro sf lg piq cfg a
    obtain ⟨h1, h2, h3, h4, h5⟩ :=
      Cilindro.loop_hist_len lg piq cfg cfg.generations
        (Cilindro.initSt sf lg piq cfg)
    refine ⟨?_, ?_, ?_, ?_, ?_⟩
    · show (Cilindro.loop lg piq cfg cfg.generations
        (Cilindro.initSt sf lg piq cfg)).best_hist.length = cfg.generations
      rw [h1]
      simp [Cilindro.initSt]
    · show (Cilindro.loop lg piq cfg cfg.generations
        (Cilindro.initSt sf lg piq cfg)).worst_hist.length = cfg.generations
      rw [h2]
      simp [Cilindro.initSt]
    · show (Cilindro.loop lg piq cfg cfg.generations
        (Cilindro.initSt sf lg piq cfg)).avg_hist.length = cfg.generations
      rw [h3]
      simp [Cilindro.initSt]
    · show (Cilindro.loop lg piq cfg cfg.generations
        (Cilindro.initSt sf lg piq cfg)).best_t_hist.length = cfg.generations
      rw [h4]
      simp [Cilindro.initSt]
    · show (Cilindro.loop lg piq cfg cfg.generations
        (Cilindro.initSt sf lg piq cfg)).best_Q_hist.length = cfg.generations
      rw [h5]
      simp [Cilindro.initSt]
  · intro lg piq N G pc pm pf a
    obtain ⟨h1, h2, h3, h4, h5, h6⟩ :=
      Placa.loop_hist_len_p lg piq N pc pm pf G (Placa.initSt lg piq N pf a)
    refine ⟨?_, ?_, ?_, ?_, ?_, ?_⟩
    · show (Placa.loop lg piq N pc pm pf G
        (Placa.initSt lg piq N pf a)).best_fit_hist.length = G
      rw [h1]
      simp [Placa.initSt]
    · show (Placa.loop lg piq N pc pm pf G
        (Placa.initSt lg piq N pf a)).worst_fit_hist.length = G
      rw [h2]
      simp [Placa.initSt]
    · show (Placa.loop lg piq N pc pm pf G
        (Placa.initSt lg piq N pf a)).mean_fit_hist.length = G
      rw [h3]
      simp [Placa.initSt]
    · show (Placa.loop lg piq N pc pm pf G
        (Placa.initSt lg piq N pf a)).best_t_hist.length = G
      rw [h4]
      simp [Placa.initSt]
    · show (Placa.loop lg piq N pc pm pf G
        (Placa.initSt lg piq N pf a)).best_k_hist.length = G
      rw [h5]
      simp [Placa.initSt]
    · show (Placa.loop lg piq N pc pm pf G
        (Placa.initSt lg piq N pf a)).best_Q_hist.length = G
      rw [h6]
      simp [Placa.initSt]
  · intro sf lg piq cfg a
    constructor
    · show minD ((Cilindro.loop lg piq cfg cfg.generations
        (Cilindro.initSt sf lg piq cfg)).fit) = _
      rw [Cilindro.loop_fit_eval]
      rfl
    · show (Cilindro.loop lg piq cfg cfg.generations
          (Cilindro.initSt sf lg piq cfg)).pop.getD
        (argminIdx ((Cilindro.loop lg piq cfg cfg.generations
          (Cilindro.initSt sf lg piq cfg)).fit)) (0, 0) = _
      rw [Cilindro.loop_fit_eval]
      rfl
  · intro lg piq N G pc pm pf a
    show (Placa.loop lg piq N pc pm pf G
        (Placa.initSt lg piq N pf a)).pop.getD
      (argminIdx ((Placa.loop lg piq N pc pm pf G
        (Placa.initSt lg piq N pf a)).fit)) (0, 0) = _
    rw [Placa.loop_fit_eval_p]
    rfl
  · intro sf lg piq cfg a hpf hN hG
    rw [centry sf lg piq cfg a (cfg.generations - 1) (by omega)]
    have h2 : (Cilindro.run_GA sf lg piq cfg a).best_fitness =
        minD ((Cilindro.loop lg piq cfg cfg.generations
          (Cilindro.initSt sf lg piq cfg)).fit) := rfl
    have h3 : minD (Cilindro.evaluate lg piq cfg.penalty_factor
        (Cilindro.popAt sf lg piq cfg (cfg.generations - 1))) =
        minD ((Cilindro.loop lg piq cfg (cfg.generations - 1)
          (Cilindro.initSt sf lg piq cfg)).fit) := by
      rw [Cilindro.loop_fit_eval]
      rfl
    rw [h2, h3]
    have hle := Cilindro.loop_min_le lg piq cfg hpf hN
      (cfg.generations - 1) cfg.generations _
      (Cilindro.init_good sf lg piq cfg) (by omega)
    exact hle
  · have e1 : (Cilindro.run_GA (fun _ => halfSrc) lgLin 3 cilC10Cfg
        zeroState).best_fitness = FVal.fin (7/5) := by
      norm_num [Cilindro.run_GA, Cilindro.loop, Cilindro.step,
        Cilindro.initSt, Cilindro.evaluate, Cilindro.objective,
        Cilindro.heat_flow, flog, Cilindro.breedAux, Cilindro.breedPair,
        Cilindro.tournament_selection, Cilindro.blend,
        Cilindro.mutateChild, Cilindro.mutateGene, qclip, uniform,
        uniformVec, randU, randN, randZ, argminIdx, argminAux, maxListF,
        sumF, meanF, Cilindro.r1, Cilindro.L, Cilindro.dT,
        Cilindro.Q_max, Cilindro.k_max, lgLin, halfSrc, zeroState,
        zeroSrc, cilC10Cfg, FVal.fdiv, FVal.fadd, FVal.fmul, FVal.fsub,
        FVal.fneg, FVal.flt, FVal.fle]
    have e2 : (Cilindro.run_GA (fun _ => halfSrc) lgLin 3 cilC10Cfg
        zeroState).best_hist.getD 0 FVal.nan = FVal.fin (3/2) := by
      norm_num [Cilindro.run_GA, Cilindro.loop, Cilindro.step,
        Cilindro.initSt, Cilindro.evaluate, Cilindro.objective,
        Cilindro.heat_flow, flog, Cilindro.breedAux, Cilindro.breedPair,
        Cilindro.tournament_selection, Cilindro.blend,
        Cilindro.mutateChild, Cilindro.mutateGene, qclip, uniform,
        uniformVec, randU, randN, randZ, argminIdx, argminAux, maxListF,
        sumF, meanF, Cilindro.r1, Cilindro.L, Cilindro.dT,
        Cilindro.Q_max, Cilindro.k_max, lgLin, halfSrc, zeroState,
        zeroSrc, cilC10Cfg, FVal.fdiv, FVal.fadd, FVal.fmul, FVal.fsub,
        FVal.fneg, FVal.flt, FVal.fle]
    rw [e1, e2]
    simp only [ne_eq, FVal.fin.injEq]
    norm_num

/-- Witness for C10 at concrete runs: the first history entry is the
argmin of generation 0's evaluation (both variants) and the returned best
fitness is below the last recorded entry. -/
theorem claim_C10_witness :
    ((Cilindro.run_GA (fun _ => halfSrc) lgLin 3 cilSmallCfg
        zeroState).best_hist.getD 0 FVal.nan =
      minD (Cilindro.evaluate lgLin 3 cilSmallCfg.penalty_factor
        (Cilindro.popAt (fun _ => halfSrc) lgLin 3 cilSmallCfg 0))) ∧
    ((Placa.run_GA lgLin 3 2 2 (9/10) (1/10) 1000000
        halfState).best_fit.getD 0 FVal.nan =
      minD (Placa.evaluate lgLin 3 1000000
        (Placa.popAt lgLin 3 2 (9/10) (1/10) 1000000 halfState 0))) ∧
    (FVal.fle (Cilindro.run_GA (fun _ => halfSrc) lgLin 3 cilSmallCfg
        zeroState).best_fitness
      ((Cilindro.run_GA (fun _ => halfSrc) lgLin 3 cilSmallCfg
        zeroState).best_hist.getD (cilSmallCfg.generations - 1) FVal.nan)
        = true) :=
  ⟨claim_C10.2.2.1 (fun _ => halfSrc) lgLin 3 cilSmallCfg zeroState 0
      (by norm_num [cilSmallCfg]),
   claim_C10.2.2.2.1 lgLin 3 2 2 (9/10) (1/10) 1000000 halfState 0
      (by norm_num),
   claim_C10.2.2.2.2.2.2.1 (fun _ => halfSrc) lgLin 3 cilSmallCfg
      zeroState (by norm_num [cilSmallCfg]) (by norm_num [cilSmallCfg])
      (by norm_num [cilSmallCfg])⟩
